import Mathlib

/-! Series grouping and the windowed merge aggregator.

A shallow embedding of `metric/series_grouper.go` (package `metric`) and of
`plugins/aggregators/merge/merge.go` (package `seriesgrouper`).

Go values of interface type `telegraf.Metric` are pointers to mutable records.
They are embedded as addresses (`Ref`) into an explicit heap, so that the
in-place `AddField` of a merge is visible through every alias of the record.
The two `*SeriesGrouper` fields of `Merge` are addresses into a store of grouper
objects, so that `Reset` copies a pointer as the source does.
The clock reading of `time.Now()`, in nanoseconds, is an explicit argument of
`Add` and `Push`; `time.Time` values are compared and shifted as integers, and
the hold time is a 64-bit `time.Duration`.
-/

namespace Telegraf

/-! ## Data model -/

/-- One tag of a metric (`telegraf.Tag`). -/
structure Tag where
  Key : String
  Value : String
deriving DecidableEq, Repr

/-- Values a field can hold after conversion: the scalar kinds of the data model.
A float is kept as its IEEE-754 bit pattern. -/
inductive FieldValue where
  | int (v : Int)
  | uint (v : Nat)
  | float (bits : Nat)
  | str (s : String)
  | bool (b : Bool)
deriving DecidableEq, Repr

/-- One field of a metric (`telegraf.Field`). -/
structure Field where
  Key : String
  Value : FieldValue
deriving DecidableEq, Repr

/-- What `time.Time` carries for a metric timestamp: the seconds since
1 January of year 1 (`t.sec()`), the nanoseconds within the second (`t.nsec()`)
and the zone: `none` for the `UTC` location, otherwise the offset in seconds
east of UTC. -/
structure Time where
  sec : Int
  nsec : Nat
  zone : Option Int
deriving DecidableEq, Repr

/-- The record behind a `telegraf.Metric` pointer: name, tag list (as
`TagList()` returns it), field list (as `FieldList()` returns it) and time. -/
structure Metric where
  name : String
  tags : List Tag
  fields : List Field
  tm : Time
deriving DecidableEq, Repr

/-- An address of a metric record. -/
abbrev Ref := Nat

/-- The heap: the record stored at every address. -/
abbrev Heap := Ref → Metric

/-- Store `v` at address `r`. -/
def Heap.set (h : Heap) (r : Ref) (v : Metric) : Heap :=
  fun x => if x = r then v else h x

/-! ## Library functions used by the source -/

/-- The bytes of a Go string (`[]byte(s)`). -/
def bytesOf (s : String) : List Nat :=
  s.data.flatMap (fun c => (String.utf8EncodeChar c).map UInt8.toNat)

/-- The FNV-1a 64-bit offset basis (`hash/fnv`). -/
def fnvOffset64 : Nat := 14695981039346656037

/-- The FNV-1a 64-bit prime (`hash/fnv`). -/
def fnvPrime64 : Nat := 1099511628211

/-- The effect of `h.Write(data)` on the state of an `fnv.New64a()` hash: for
every byte, xor, then multiply by the prime, in 64-bit arithmetic. -/
def fnvWrite (hash : Nat) (data : List Nat) : Nat :=
  data.foldl (fun acc b => ((acc ^^^ b) * fnvPrime64) % 2 ^ 64) hash

/-- The `n` low bytes of `v`, most significant first. -/
def bigEndian : Nat → Nat → List Nat
  | 0, _ => []
  | n + 1, v => (v / 256 ^ n) % 256 :: bigEndian n v

/-- The bytes of `Time.MarshalBinary()` (encoding version 1): the version, the
seconds on 8 bytes, the nanoseconds on 4 bytes and the zone offset in minutes on
2 bytes (`-1` for UTC). When the call fails (an offset that is not a whole
number of minutes, or outside the 16-bit range, or `-1` minutes) the slice is
`nil`, here the empty list; the source drops the error. -/
def Time.MarshalBinary (t : Time) : List Nat :=
  let enc := fun (offsetMin : Int) =>
    1 :: (bigEndian 8 (t.sec % 2 ^ 64).toNat ++ bigEndian 4 (t.nsec % 2 ^ 32)
      ++ bigEndian 2 (offsetMin % 2 ^ 16).toNat)
  match t.zone with
  | none => enc (-1)
  | some offset =>
    if offset % 60 ≠ 0 then []
    else
      let m := offset / 60
      if m < -32768 ∨ m = -1 ∨ m > 32767 then [] else enc m

/-- The method `Round` of `time.Time`: the time rounded to the nearest multiple
of `d` nanoseconds since the zero time, halfway values rounding up; the time
itself when `d <= 0`. The location is kept. -/
def Time.Round (t : Time) (d : Int) : Time :=
  if d ≤ 0 then t
  else
    let n : Int := t.sec * 1000000000 + t.nsec
    let r := n % d
    let n1 := if r + r < d then n - r else n + (d - r)
    { t with sec := n1 / 1000000000, nsec := (n1 % 1000000000).toNat }


/-- The value of a 64-bit signed integer after wrap-around. -/
def wrapInt64 (x : Int) : Int :=
  (x + 9223372036854775808) % 18446744073709551616 - 9223372036854775808

/-- The negation `-d` of a `time.Duration`, a 64-bit signed number of nanoseconds. -/
def negDuration (d : Int) : Int :=
  wrapInt64 (-d)

/-- The value `d` is a `time.Duration` whose negation does not overflow: any
64-bit signed integer but the least one. -/
def Negatable (d : Int) : Prop :=
  -9223372036854775808 < d ∧ d < 9223372036854775808

/-- Whether a duration can be negated is decided by comparing. -/
instance (d : Int) : Decidable (Negatable d) :=
  inferInstanceAs (Decidable (-9223372036854775808 < d ∧ d < 9223372036854775808))

/-- Modelled from the spec: `metric.AddField` of `metric/metric.go`, which is not
among the sources. Field keys are unique within a record and the last write for
a key wins: the value of an existing key is overwritten in place, a new key is
appended. -/
def setField : List Field → String → FieldValue → List Field
  | [], key, value => [⟨key, value⟩]
  | f :: fs, key, value =>
    if f.Key = key then ⟨key, value⟩ :: fs else f :: setField fs key value

/-- Modelled from the spec: the method `AddField(key, value)` of a metric record
(`metric/metric.go`, not among the sources); see `setField`. -/
def Metric.AddField (m : Metric) (key : String) (value : FieldValue) : Metric :=
  { m with fields := setField m.fields key value }

/-- The value of field `key` of a field list: the first field with that key. -/
def getField : List Field → String → Option FieldValue
  | [], _ => none
  | f :: fs, key => if f.Key = key then some f.Value else getField fs key

/-- A Go type that implements `telegraf.Metric` by delegating to a record on the
heap: `ptr` is the address of that record. -/
class IsMetric (M : Type) where
  ptr : M → Ref

/-- A plain `telegraf.Metric`: the pointer itself. -/
instance : IsMetric Ref := ⟨fun r => r⟩

/-- The struct `wallTimeMetric` of `merge.go`: a wall-clock reading and the
embedded `telegraf.Metric`. -/
structure wallTimeMetric where
  wallTime : Int
  Metric : Ref
deriving DecidableEq, Repr

/-- The methods of the embedded metric are promoted to `wallTimeMetric`. -/
instance : IsMetric wallTimeMetric := ⟨wallTimeMetric.Metric⟩

/-! ## `metric/series_grouper.go` -/

/-- The struct `SeriesGrouper`: the map from fingerprint to metric, as an
association list with unique keys, and the ordered slice. -/
structure SeriesGrouper (M : Type) where
  metrics : List (Nat × M)
  ordered : List M
deriving DecidableEq, Repr

/-- The empty grouper of `NewSeriesGrouper()`. -/
def NewSeriesGrouper {M : Type} : SeriesGrouper M :=
  { metrics := [], ordered := [] }

/-- The map read `g.metrics[id]`. -/
def mapGet {M : Type} : List (Nat × M) → Nat → Option M
  | [], _ => none
  | (k, v) :: rest, id => if k = id then some v else mapGet rest id

/-- The map write `g.metrics[id] = m`. -/
def mapSet {M : Type} : List (Nat × M) → Nat → M → List (Nat × M)
  | [], id, m => [(id, m)]
  | (k, v) :: rest, id, m => if k = id then (id, m) :: rest else (k, v) :: mapSet rest id m

/-- The fingerprint `id` computed in the first lines of `AddMetric`: FNV-1a over
the name and a newline, every tag of `TagList()` as key, newline, value,
newline, and the bytes of `Time().MarshalBinary()`. -/
def seriesID (m : Metric) : Nat :=
  let h := fnvWrite fnvOffset64 (bytesOf (m.name ++ "\n"))
  let h := m.tags.foldl (fun h t => fnvWrite h (bytesOf (t.Key ++ "\n" ++ t.Value ++ "\n"))) h
  fnvWrite h m.tm.MarshalBinary

/-- The fingerprint `AddMetric` computes for the metric value `m`, whose record
is read from the heap `h`. -/
def fingerprint {M : Type} [IsMetric M] (h : Heap) (m : M) : Nat :=
  seriesID (h (IsMetric.ptr m))

/-- The loop `for _, f := range m.FieldList() { metric.AddField(f.Key, f.Value) }`
acting on the record at address `target`. -/
def mergeFields (h : Heap) (target : Ref) (fields : List Field) : Heap :=
  fields.foldl (fun hp f => hp.set target ((hp target).AddField f.Key f.Value)) h

/-- The method `AddMetric`: when the fingerprint of `m` is in the map, every field
of `m` is added to the record found there; otherwise `m` is entered in the map
and appended to the ordered slice. -/
def SeriesGrouper.AddMetric {M : Type} [IsMetric M] (h : Heap) (g : SeriesGrouper M) (m : M) :
    Heap × SeriesGrouper M :=
  let id := fingerprint h m
  match mapGet g.metrics id with
  | some metric => (mergeFields h (IsMetric.ptr metric) (h (IsMetric.ptr m)).fields, g)
  | none => (h, { metrics := mapSet g.metrics id m, ordered := g.ordered ++ [m] })

/-- The method `Metrics`: the ordered slice. -/
def SeriesGrouper.Metrics {M : Type} (g : SeriesGrouper M) : List M :=
  g.ordered

/-! ## `plugins/aggregators/merge/merge.go` -/

/-- Modelled from the spec: the sink boundary (`telegraf.Accumulator`, declared
outside the sources). `SetPrecision` records the precision asked for, in
nanoseconds. `AddMetric` records, in call order, the record handed over and the
timestamp the sink keeps for it: the record's timestamp rounded to the precision
in force at that call. -/
structure Accumulator where
  precision : Int
  metrics : List Ref
  times : List Time
deriving DecidableEq, Repr

/-- Modelled from the spec: `setPrecision(duration)` of the sink boundary. -/
def Accumulator.SetPrecision (acc : Accumulator) (d : Int) : Accumulator :=
  { acc with precision := d }

/-- Modelled from the spec: `deliver(record)` of the sink boundary, the record
read from the heap `h`. -/
def Accumulator.AddMetric (acc : Accumulator) (h : Heap) (m : Ref) : Accumulator :=
  { acc with
    metrics := acc.metrics ++ [m]
    times := acc.times ++ [(h m).tm.Round acc.precision] }

/-- The struct `Merge`: the hold time, a `time.Duration` in nanoseconds, and the
two grouper pointers, `none` being the nil pointer. -/
structure Merge where
  HoldTime : Int
  grouper : Option Nat
  nextGrouper : Option Nat
deriving DecidableEq, Repr

/-- The memory a `Merge` works on: the metric records, the grouper objects by
address, the first address not yet allocated, and the plugin struct itself. -/
structure State where
  heap : Heap
  groupers : Nat → SeriesGrouper wallTimeMetric
  nextAddr : Nat
  a : Merge

/-- Store grouper `g` at address `p`. -/
def State.setGrouper (s : State) (p : Nat) (g : SeriesGrouper wallTimeMetric) : State :=
  { s with groupers := fun x => if x = p then g else s.groupers x }

/-- The allocation `metric.NewSeriesGrouper()`: an empty grouper at a fresh address. -/
def State.alloc (s : State) : State × Nat :=
  ({ s.setGrouper s.nextAddr NewSeriesGrouper with nextAddr := s.nextAddr + 1 }, s.nextAddr)

/-- The method `Init`: `a.grouper = metric.NewSeriesGrouper()`. -/
def Merge.Init (s : State) : State :=
  let (s1, p) := s.alloc
  { s1 with a := { s1.a with grouper := some p } }

/-- The method `Add`, the clock reading `now`; `none` is the panic of the nil
pointer dereference in `a.grouper.AddMetric`. -/
def Merge.Add (s : State) (now : Int) (m : Ref) : Option State :=
  let wtm : wallTimeMetric := { wallTime := now, Metric := m }
  match s.a.grouper with
  | none => none
  | some p =>
    let (h, g) := SeriesGrouper.AddMetric s.heap (s.groupers p) wtm
    some { s.setGrouper p g with heap := h }

/-- The body of the loop of `Push` for one metric of `a.grouper.Metrics()`. -/
def Merge.pushStep (cutoff : Int) (next : Nat) (st : State × Accumulator) (wtm : wallTimeMetric) :
    State × Accumulator :=
  if wtm.wallTime > cutoff then
    let (h, g) := SeriesGrouper.AddMetric st.1.heap (st.1.groupers next) wtm
    ({ st.1.setGrouper next g with heap := h }, st.2)
  else
    (st.1, st.2.AddMetric st.1.heap wtm.Metric)

/-- The method `Push`, the clock reading `now`; `none` is the panic of the nil
pointer dereference in `a.grouper.Metrics()`. -/
def Merge.Push (s : State) (now : Int) (acc : Accumulator) : Option (State × Accumulator) :=
  let acc := acc.SetPrecision 1
  let cutoff := now + negDuration s.a.HoldTime
  let (s1, next) := s.alloc
  let s2 : State := { s1 with a := { s1.a with nextGrouper := some next } }
  match s2.a.grouper with
  | none => none
  | some p => some ((s2.groupers p).Metrics.foldl (Merge.pushStep cutoff next) (s2, acc))

/-- The method `Reset`: `a.grouper = a.nextGrouper`. -/
def Merge.Reset (s : State) : State :=
  { s with a := { s.a with grouper := s.a.nextGrouper } }

/-- The states a `Merge` can be in: the zero value `&Merge{HoldTime: d}` in any
memory, and every state reached from it through `Init`, `Add`, `Push` and
`Reset`. -/
inductive Reachable : State → Prop
  | zero (heap : Heap) (groupers : Nat → SeriesGrouper wallTimeMetric) (nextAddr : Nat)
      (d : Int) :
      Reachable
        { heap := heap, groupers := groupers, nextAddr := nextAddr,
          a := { HoldTime := d, grouper := none, nextGrouper := none } }
  | init {s : State} : Reachable s → Reachable (Merge.Init s)
  | add {s s1 : State} (now : Int) (m : Ref) :
      Reachable s → Merge.Add s now m = some s1 → Reachable s1
  | push {s s1 : State} (now : Int) (acc acc1 : Accumulator) :
      Reachable s → Merge.Push s now acc = some (s1, acc1) → Reachable s1
  | reset {s : State} : Reachable s → Reachable (Merge.Reset s)

/-! ## Definitions used to state the properties -/

/-- The field list after the fields `fs` have been added, in order, to `base`. -/
def addFields (base fs : List Field) : List Field :=
  fs.foldl (fun acc f => setField acc f.Key f.Value) base

/-- The keys of a field list. -/
def fieldKeys (fs : List Field) : List String :=
  fs.map Field.Key

/-- The identity of a record: name, tag list and time. -/
def Metric.identity (m : Metric) : String × List Tag × Time :=
  (m.name, m.tags, m.tm)

/-- The metrics of a sequence whose key was not seen earlier in the sequence
(`seen` holds the keys met so far): one per distinct key, in the order of first
appearance. -/
def firstSeenAux {α : Type} (key : α → Nat) : List Nat → List α → List α
  | _, [] => []
  | seen, x :: xs =>
    if key x ∈ seen then firstSeenAux key seen xs
    else x :: firstSeenAux key (seen ++ [key x]) xs

/-- One element per distinct key, in the order in which each key first appears. -/
def firstSeen {α : Type} (key : α → Nat) (xs : List α) : List α :=
  firstSeenAux key [] xs

/-- A sequence of `AddMetric` calls. -/
def addAll {M : Type} [IsMetric M] (h : Heap) (g : SeriesGrouper M) (ms : List M) :
    Heap × SeriesGrouper M :=
  ms.foldl (fun st m => SeriesGrouper.AddMetric st.1 st.2 m) (h, g)

/-- The metrics `Push` stages at a given cutoff: those whose wall time is after it. -/
def heldBack (cutoff : Int) (l : List wallTimeMetric) : List wallTimeMetric :=
  l.filter (fun w => decide (w.wallTime > cutoff))

/-- The metrics `Push` hands to the accumulator at a given cutoff: the others. -/
def ready (cutoff : Int) (l : List wallTimeMetric) : List wallTimeMetric :=
  l.filter (fun w => !decide (w.wallTime > cutoff))

/-- The grouper that holds exactly the metrics `l`, each under its fingerprint. -/
def grouperOf {M : Type} [IsMetric M] (h : Heap) (l : List M) : SeriesGrouper M :=
  { metrics := l.map (fun m => (fingerprint h m, m)), ordered := l }

/-- Map and slice of a grouper describe the same metrics, under pairwise
distinct fingerprints. -/
def SeriesGrouper.WF {M : Type} [IsMetric M] (h : Heap) (g : SeriesGrouper M) : Prop :=
  g.metrics = g.ordered.map (fun m => (fingerprint h m, m)) ∧
    (g.ordered.map (fingerprint h)).Nodup

/-- Two heaps hold records of the same identity at every address. -/
def SameIds (h h1 : Heap) : Prop :=
  ∀ r, (h1 r).identity = (h r).identity

/-- The invariant of the reachable states: a grouper pointer that is not nil
points to an allocated, well-formed grouper. -/
def State.Inv (s : State) : Prop :=
  (∀ p, s.a.grouper = some p → p < s.nextAddr ∧ (s.groupers p).WF s.heap) ∧
    (∀ p, s.a.nextGrouper = some p → p < s.nextAddr ∧ (s.groupers p).WF s.heap)

/-- A sequence of `Add` calls, each with its clock reading. -/
def addMany : State → List (Int × Ref) → Option State
  | s, [] => some s
  | s, (now, m) :: rest => (Merge.Add s now m).bind (fun s1 => addMany s1 rest)

/-! ## Example data (the records of `merge_test.go`) -/

/-- The timestamp `time.Unix(0, nsec)` in a zone at offset 0. -/
def exTime (nsec : Nat) : Time :=
  { sec := 62135596800, nsec := nsec, zone := some 0 }

/-- A heap with the records of the tests at addresses 0 to 3 and two records
whose identities differ but serialise to the same bytes at addresses 4 and 5. -/
def exHeap : Heap := fun r =>
  if r = 0 then
    { name := "cpu", tags := [⟨"cpu", "cpu0"⟩], fields := [⟨"time_idle", .int 42⟩],
      tm := exTime 0 }
  else if r = 1 then
    { name := "cpu", tags := [⟨"cpu", "cpu0"⟩], fields := [⟨"time_guest", .int 42⟩],
      tm := exTime 0 }
  else if r = 2 then
    { name := "cpu", tags := [⟨"cpu", "cpu0"⟩], fields := [⟨"time_idle", .int 42⟩],
      tm := exTime 1 }
  else if r = 3 then
    { name := "cpu", tags := [⟨"cpu", "cpu0"⟩], fields := [⟨"time_user", .int 53⟩],
      tm := exTime 0 }
  else if r = 4 then
    { name := "a\nb\nc", tags := [], fields := [⟨"x", .int 1⟩], tm := exTime 0 }
  else
    { name := "a", tags := [⟨"b", "c"⟩], fields := [⟨"y", .int 2⟩], tm := exTime 0 }

/-- The zero value `&Merge{HoldTime: d}` over the example heap. -/
def exState (d : Int) : State :=
  { heap := exHeap, groupers := fun _ => NewSeriesGrouper, nextAddr := 0,
    a := { HoldTime := d, grouper := none, nextGrouper := none } }

/-- The example state with hold time 0 after `Init` and the `Add` of the record
at address 0 at clock reading 5. -/
def exAdded : State :=
  match Merge.Add (Merge.Init (exState 0)) 5 0 with
  | some s => s
  | none => exState 0

/-! ## `groupID` and `AddField` of `metric/series_grouper.go` -/

/-- Whether the byte string `a` is at most the byte string `b` in the order of Go
string comparison (lexicographic on bytes). -/
def bytesLE : List Nat → List Nat → Bool
  | [], _ => true
  | _ :: _, [] => false
  | a :: as, b :: bs => decide (a < b) || (decide (a = b) && bytesLE as bs)

/-- The order `sort.Slice` leaves two tags in: the closure of the source,
`taglist[i].Key < taglist[j].Key`, does not hold from the later to the earlier. -/
def tagLE (a b : Tag) : Prop :=
  bytesLE (bytesOf a.Key) (bytesOf b.Key) = true

/-- The order of two tags is decided by comparing bytes. -/
instance : DecidableRel tagLE :=
  fun a b => inferInstanceAs (Decidable (bytesLE (bytesOf a.Key) (bytesOf b.Key) = true))

/-- The tag list after `sort.Slice(taglist, ...)`: the tags in ascending key
order. The keys of a Go map are distinct, so that the sorted list does not depend
on the sorting algorithm. -/
def sortTags (taglist : List Tag) : List Tag :=
  taglist.insertionSort tagLE

/-- The method `UnixNano` of `time.Time`: the nanoseconds since 1 January 1970 UTC
as a 64-bit signed integer. -/
def Time.UnixNano (t : Time) : Int :=
  wrapInt64 ((t.sec - 62135596800) * 1000000000 + t.nsec)

/-- The decimal text of `strconv.FormatInt(i, 10)`. -/
def formatInt : Int → String
  | Int.ofNat n => Nat.repr n
  | Int.negSucc n => "-" ++ Nat.repr (n + 1)

/-- The function `groupID`; `tags` lists the entries of the map `tags` in the
order in which `range` enumerates them. -/
def groupID (measurement : String) (tags : List Tag) (tm : Time) : Nat :=
  let h := fnvWrite fnvOffset64 (bytesOf measurement)
  let h := fnvWrite h (bytesOf "\n")
  let taglist := sortTags tags
  let h := taglist.foldl
    (fun h tag =>
      fnvWrite (fnvWrite (fnvWrite (fnvWrite h (bytesOf tag.Key)) (bytesOf "\n"))
        (bytesOf tag.Value)) (bytesOf "\n")) h
  let h := fnvWrite h (bytesOf "\n")
  fnvWrite h (bytesOf (formatInt tm.UnixNano))

/-- The error of the field-only insert path. -/
inductive GrouperError where
  | UnsupportedValueType
deriving DecidableEq, Repr

/-- Modelled from the spec: the constructor `New` of `metric/metric.go`, which is
not among the sources, called with a single field. It fails with
`UnsupportedValueType` when the field value cannot be represented as a field
value (`none`); otherwise the record has the given name and time, the tags in
ascending key order and the one field. -/
def New (measurement : String) (tags : List Tag) (field : String)
    (fieldValue : Option FieldValue) (tm : Time) : Except GrouperError Metric :=
  match fieldValue with
  | none => .error .UnsupportedValueType
  | some v =>
    .ok { name := measurement, tags := sortTags tags, fields := [⟨field, v⟩], tm := tm }

/-- The method `AddField` of `SeriesGrouper`. The value `fieldValue` is `none` when
it cannot be represented as a field value. The address `fresh` is where `New`
allocates its record. What the method `AddField` of an existing record does with
the raw value is the parameter `recordAddField` (`metric/metric.go` is not among
the sources). The result is the returned error or, when `nil` is returned, the
memory after the call. -/
def SeriesGrouper.AddField (recordAddField : Metric → String → Option FieldValue → Metric)
    (h : Heap) (g : SeriesGrouper Ref) (fresh : Ref) (measurement : String) (tags : List Tag)
    (tm : Time) (field : String) (fieldValue : Option FieldValue) :
    Except GrouperError (Heap × SeriesGrouper Ref) :=
  let id := groupID measurement tags tm
  match mapGet g.metrics id with
  | none =>
    match New measurement tags field fieldValue tm with
    | .error err => .error err
    | .ok metric =>
      .ok (h.set fresh metric,
        { metrics := mapSet g.metrics id fresh, ordered := g.ordered ++ [fresh] })
  | some metric => .ok (h.set metric (recordAddField (h metric) field fieldValue), g)

/-- Modelled from the spec: what the method `AddField` of a record does with a raw
value. A value that can be represented is added as `Metric.AddField` does; for a
value that cannot, the spec gives no behaviour and the record is left as it is. -/
def recordAddField (m : Metric) (key : String) (value : Option FieldValue) : Metric :=
  match value with
  | some v => m.AddField key v
  | none => m

/-! ## Runs of the aggregator -/

/-- One call of the host: an `Add` at a clock reading, or a `Push` at a clock
reading immediately followed by `Reset`. -/
inductive Event where
  | add (now : Int) (m : Ref)
  | flush (now : Int)
deriving DecidableEq, Repr

/-- The effect of one event on the aggregator and the accumulator. -/
def step (st : State × Accumulator) : Event → Option (State × Accumulator)
  | .add now m => (Merge.Add st.1 now m).map (fun s1 => (s1, st.2))
  | .flush now => (Merge.Push st.1 now st.2).map (fun x => (Merge.Reset x.1, x.2))

/-- The effect of a sequence of events. -/
def run : State × Accumulator → List Event → Option (State × Accumulator)
  | st, [] => some st
  | st, e :: rest => (step st e).bind (fun st1 => run st1 rest)

/-- The clock readings of the flushes of a run. -/
def flushTimes : List Event → List Int
  | [] => []
  | .add _ _ :: rest => flushTimes rest
  | .flush now :: rest => now :: flushTimes rest

/-- The records handed to `Add` in a run. -/
def addedRefs : List Event → List Ref
  | [] => []
  | .add _ m :: rest => m :: addedRefs rest
  | .flush _ :: rest => addedRefs rest

/-- The example heap with a further record at address 6: the second record of
`TestNanosecondPrecision`, of the identity of the record at address 2. -/
def exHeapNs : Heap := fun r =>
  if r = 6 then
    { name := "cpu", tags := [⟨"cpu", "cpu0"⟩], fields := [⟨"time_guest", .int 42⟩],
      tm := exTime 1 }
  else exHeap r

/-- The example state with hold time 10 after `Init` and the `Add` of the record
at address 0 at clock reading 5. -/
def exAdded10 : State :=
  match Merge.Add (Merge.Init (exState 10)) 5 0 with
  | some s => s
  | none => exState 10

/-- The example state with hold time 10 after `Init`, the `Add` of the record at
address 0 at clock reading 5 and the `Push` at clock reading 7, which stages it. -/
def exPushed : State :=
  match Merge.Push exAdded10 7 ⟨0, [], []⟩ with
  | some x => x.1
  | none => exState 10

/-- The zero value `&Merge{}` over the heap of `TestNanosecondPrecision`. -/
def exStateNs : State :=
  { heap := exHeapNs, groupers := fun _ => NewSeriesGrouper, nextAddr := 0,
    a := { HoldTime := 0, grouper := none, nextGrouper := none } }

/-- The state of `TestNanosecondPrecision` after `Init` and the first `Add`, at
clock reading 5. -/
def exNs1 : State :=
  match Merge.Add (Merge.Init exStateNs) 5 2 with
  | some s => s
  | none => exStateNs

/-- The state of `TestNanosecondPrecision` after the second `Add`, at clock
reading 6. -/
def exNs : State :=
  match Merge.Add exNs1 6 6 with
  | some s => s
  | none => exStateNs

/-- The example heap with two further records. At address 8: the second record
of `TestSimple` with its timestamp in the `UTC` location
(`time.Unix(0, 0).UTC()`), the instant of `time.Unix(0, 0)`. At address 9: a
record of the name, tags and time of the record at address 4. -/
def exHeapMore : Heap := fun r =>
  if r = 8 then
    { name := "cpu", tags := [⟨"cpu", "cpu0"⟩], fields := [⟨"time_guest", .int 42⟩],
      tm := { sec := 62135596800, nsec := 0, zone := none } }
  else if r = 9 then
    { name := "a\nb\nc", tags := [], fields := [⟨"z", .int 3⟩], tm := exTime 0 }
  else exHeap r

/-- The zero value `&Merge{HoldTime: d}` over the heap `exHeapMore`. -/
def exStateMore (d : Int) : State :=
  { heap := exHeapMore, groupers := fun _ => NewSeriesGrouper, nextAddr := 0,
    a := { HoldTime := d, grouper := none, nextGrouper := none } }

/-! ## Durations -/

theorem negDuration_eq (d : Int) (h : Negatable d) : negDuration d = -d := by
  obtain ⟨h1, h2⟩ := h
  unfold negDuration wrapInt64
  omega

theorem negDuration_zero : negDuration 0 = 0 := by decide

/-! ## Field lists -/

theorem mem_fieldKeys_setField (fs : List Field) (key : String) (value : FieldValue)
    (k : String) : k ∈ fieldKeys (setField fs key value) ↔ k ∈ fieldKeys fs ∨ k = key := by
  induction fs with
  | nil => simp [setField, fieldKeys]
  | cons f fs ih =>
    unfold setField
    by_cases hk : f.Key = key
    · simp only [hk, if_true, fieldKeys, List.map_cons, List.mem_cons]
      constructor
      · rintro (h | h)
        · exact Or.inr h
        · exact Or.inl (Or.inr h)
      · rintro ((h | h) | h)
        · exact Or.inl h
        · exact Or.inr h
        · exact Or.inl h
    · simp only [hk, if_false, fieldKeys, List.map_cons, List.mem_cons] at ih ⊢
      rw [ih]
      tauto

theorem getField_setField (fs : List Field) (key : String) (value : FieldValue)
    (k : String) :
    getField (setField fs key value) k = if k = key then some value else getField fs k := by
  induction fs with
  | nil =>
    by_cases hk : k = key
    · simp [setField, getField, hk]
    · have hk2 : ¬ key = k := fun e => hk e.symm
      simp [setField, getField, hk, hk2]
  | cons f fs ih =>
    unfold setField
    by_cases hf : f.Key = key
    · by_cases hk : k = key
      · simp [hf, getField, hk]
      · have hk2 : ¬ key = k := fun e => hk e.symm
        simp [hf, getField, hk, hk2]
    · by_cases hk : k = key
      · subst hk
        simp [hf, getField, ih]
      · simp only [hf, if_false, getField, ih, hk]

theorem mem_fieldKeys_addFields (fs base : List Field) (k : String) :
    k ∈ fieldKeys (addFields base fs) ↔ k ∈ fieldKeys base ∨ k ∈ fieldKeys fs := by
  induction fs generalizing base with
  | nil => simp [addFields, fieldKeys]
  | cons f fs ih =>
    have h := ih (setField base f.Key f.Value)
    simp only [addFields, List.foldl_cons] at h ⊢
    rw [h, mem_fieldKeys_setField]
    simp only [fieldKeys, List.map_cons, List.mem_cons]
    tauto

theorem getField_addFields_of_not_mem (fs base : List Field) (k : String)
    (hk : k ∉ fieldKeys fs) : getField (addFields base fs) k = getField base k := by
  induction fs generalizing base with
  | nil => simp [addFields]
  | cons f fs ih =>
    simp only [fieldKeys, List.map_cons, List.mem_cons, not_or] at hk
    have h := ih (setField base f.Key f.Value) hk.2
    simp only [addFields, List.foldl_cons] at h ⊢
    rw [h, getField_setField, if_neg hk.1]

theorem getField_addFields_of_mem (fs base : List Field) (hnd : (fieldKeys fs).Nodup)
    (f : Field) (hf : f ∈ fs) : getField (addFields base fs) f.Key = some f.Value := by
  induction fs generalizing base with
  | nil => simp at hf
  | cons g fs ih =>
    simp only [fieldKeys, List.map_cons, List.nodup_cons] at hnd
    simp only [addFields, List.foldl_cons]
    rcases List.mem_cons.mp hf with rfl | hf1
    · have h := getField_addFields_of_not_mem fs (setField base f.Key f.Value) f.Key hnd.1
      simp only [addFields] at h
      rw [h, getField_setField, if_pos rfl]
    · exact ih (setField base g.Key g.Value) hnd.2 hf1

/-! ## The fingerprint map -/

theorem mapSet_of_mapGet_none {M : Type} (l : List (Nat × M)) (id : Nat) (m : M)
    (h : mapGet l id = none) : mapSet l id m = l ++ [(id, m)] := by
  induction l with
  | nil => rfl
  | cons kv rest ih =>
    obtain ⟨k, v⟩ := kv
    by_cases hk : k = id
    · simp [mapGet, hk] at h
    · simp only [mapGet, if_neg hk] at h
      simp [mapSet, hk, ih h]

theorem mapGet_map_none {M : Type} (key : M → Nat) (l : List M) (id : Nat) :
    mapGet (l.map (fun m => (key m, m))) id = none ↔ id ∉ l.map key := by
  induction l with
  | nil => simp [mapGet]
  | cons x xs ih =>
    by_cases hk : key x = id
    · simp [mapGet, hk]
    · have hk2 : ¬ id = key x := fun e => hk e.symm
      simp [mapGet, hk, hk2, ih]

theorem mapGet_map_some {M : Type} (key : M → Nat) (l : List M) (id : Nat) (x : M)
    (h : mapGet (l.map (fun m => (key m, m))) id = some x) : x ∈ l ∧ key x = id := by
  induction l with
  | nil => simp [mapGet] at h
  | cons y ys ih =>
    by_cases hk : key y = id
    · simp only [List.map_cons, mapGet, if_pos hk, Option.some.injEq] at h
      subst h
      exact ⟨List.mem_cons_self _ _, hk⟩
    · simp only [List.map_cons, mapGet, if_neg hk] at h
      exact ⟨List.mem_cons_of_mem _ (ih h).1, (ih h).2⟩

theorem mapGet_map_of_mem {M : Type} (key : M → Nat) (l : List M) (x : M) (hx : x ∈ l)
    (hnd : (l.map key).Nodup) : mapGet (l.map (fun m => (key m, m))) (key x) = some x := by
  induction l with
  | nil => simp at hx
  | cons y ys ih =>
    simp only [List.map_cons, List.nodup_cons] at hnd
    rcases List.mem_cons.mp hx with rfl | hx1
    · simp [mapGet]
    · have hne : ¬ key y = key x := fun e => hnd.1 (e ▸ List.mem_map_of_mem key hx1)
      simp only [List.map_cons, mapGet, if_neg hne]
      exact ih hx1 hnd.2

/-! ## Records on the heap -/

theorem seriesID_congr (m m1 : Metric) (h : m1.identity = m.identity) :
    seriesID m1 = seriesID m := by
  simp only [Metric.identity, Prod.mk.injEq] at h
  simp only [seriesID, h.1, h.2.1, h.2.2]

theorem SameIds.refl (h : Heap) : SameIds h h := fun _ => rfl

theorem SameIds.trans {h h1 h2 : Heap} (a : SameIds h h1) (b : SameIds h1 h2) :
    SameIds h h2 := fun r => (b r).trans (a r)

theorem SameIds.fingerprint {M : Type} [IsMetric M] {h h1 : Heap} (a : SameIds h h1) (m : M) :
    fingerprint h1 m = fingerprint h m :=
  seriesID_congr _ _ (a _)

theorem mergeFields_apply (fs : List Field) (h : Heap) (target r : Ref) :
    mergeFields h target fs r =
      if r = target then { h target with fields := addFields (h target).fields fs } else h r := by
  induction fs generalizing h with
  | nil =>
    by_cases hr : r = target
    · simp [mergeFields, addFields, hr]
    · simp [mergeFields, hr]
  | cons f fs ih =>
    have e := ih (h.set target ((h target).AddField f.Key f.Value))
    simp only [mergeFields, List.foldl_cons] at e ⊢
    rw [e]
    by_cases hr : r = target
    · simp [hr, Heap.set, Metric.AddField, addFields]
    · simp [hr, Heap.set]

theorem mergeFields_sameIds (fs : List Field) (h : Heap) (target : Ref) :
    SameIds h (mergeFields h target fs) := by
  intro r
  rw [mergeFields_apply]
  by_cases hr : r = target
  · simp [hr, Metric.identity]
  · simp [hr]

/-! ## `AddMetric` -/

theorem AddMetric_absent {M : Type} [IsMetric M] (h : Heap) (g : SeriesGrouper M) (m : M)
    (ha : mapGet g.metrics (fingerprint h m) = none) :
    SeriesGrouper.AddMetric h g m =
      (h, { metrics := g.metrics ++ [(fingerprint h m, m)], ordered := g.ordered ++ [m] }) := by
  simp only [SeriesGrouper.AddMetric, ha, mapSet_of_mapGet_none _ _ _ ha]

theorem AddMetric_present {M : Type} [IsMetric M] (h : Heap) (g : SeriesGrouper M) (m x : M)
    (ha : mapGet g.metrics (fingerprint h m) = some x) :
    SeriesGrouper.AddMetric h g m =
      (mergeFields h (IsMetric.ptr x) (h (IsMetric.ptr m)).fields, g) := by
  simp only [SeriesGrouper.AddMetric, ha]

theorem AddMetric_sameIds {M : Type} [IsMetric M] (h : Heap) (g : SeriesGrouper M) (m : M) :
    SameIds h (SeriesGrouper.AddMetric h g m).1 := by
  cases ha : mapGet g.metrics (fingerprint h m) with
  | none => rw [AddMetric_absent h g m ha]; exact SameIds.refl h
  | some x => rw [AddMetric_present h g m x ha]; exact mergeFields_sameIds _ _ _

theorem WF_congr {M : Type} [IsMetric M] {h h1 : Heap} (a : SameIds h h1)
    (g : SeriesGrouper M) (w : g.WF h) : g.WF h1 := by
  have e : (fun m : M => fingerprint h1 m) = fun m => fingerprint h m :=
    funext fun m => a.fingerprint m
  unfold SeriesGrouper.WF at w ⊢
  have e2 : (fun m : M => (fingerprint h1 m, m)) = fun m => (fingerprint h m, m) :=
    funext fun m => by rw [a.fingerprint m]
  rw [e2]
  exact ⟨w.1, by simpa [e] using w.2⟩

theorem WF_new {M : Type} [IsMetric M] (h : Heap) : (NewSeriesGrouper : SeriesGrouper M).WF h := by
  simp [SeriesGrouper.WF, NewSeriesGrouper]

theorem WF_grouperOf {M : Type} [IsMetric M] (h : Heap) (l : List M)
    (hnd : (l.map (fingerprint h)).Nodup) : (grouperOf h l).WF h :=
  ⟨rfl, hnd⟩

theorem WF_eq_grouperOf {M : Type} [IsMetric M] (h : Heap) (g : SeriesGrouper M) (w : g.WF h) :
    g = grouperOf h g.ordered := by
  cases g with
  | mk metrics ordered =>
    simp only [SeriesGrouper.WF] at w
    simp [grouperOf, w.1]

theorem AddMetric_WF {M : Type} [IsMetric M] (h : Heap) (g : SeriesGrouper M) (m : M)
    (w : g.WF h) : (SeriesGrouper.AddMetric h g m).2.WF (SeriesGrouper.AddMetric h g m).1 := by
  cases ha : mapGet g.metrics (fingerprint h m) with
  | none =>
    rw [AddMetric_absent h g m ha]
    have hn : fingerprint h m ∉ g.ordered.map (fingerprint h) := by
      rw [w.1] at ha
      exact (mapGet_map_none _ _ _).mp ha
    refine ⟨?_, ?_⟩
    · simp [w.1]
    · simp only [List.map_append, List.map_cons, List.map_nil]
      rw [List.nodup_append]
      refine ⟨w.2, by simp, ?_⟩
      intro a ha1 ha2
      simp only [List.mem_singleton] at ha2
      exact hn (ha2 ▸ ha1)
  | some x =>
    rw [AddMetric_present h g m x ha]
    exact WF_congr (mergeFields_sameIds _ _ _) g w

/-! ## `Add`, `Push` and the invariant -/

theorem fingerprint_wtm (h : Heap) (w : wallTimeMetric) :
    fingerprint h w = seriesID (h w.Metric) := rfl

theorem Add_eq (s : State) (p : Nat) (hp : s.a.grouper = some p) (now : Int) (m : Ref) :
    Merge.Add s now m =
      some { s.setGrouper p
              (SeriesGrouper.AddMetric s.heap (s.groupers p) ⟨now, m⟩).2 with
             heap := (SeriesGrouper.AddMetric s.heap (s.groupers p) ⟨now, m⟩).1 } := by
  simp only [Merge.Add, hp]

theorem Add_absent (s : State) (p : Nat) (hp : s.a.grouper = some p) (now : Int) (m : Ref)
    (ha : mapGet (s.groupers p).metrics (seriesID (s.heap m)) = none) :
    ∃ s1, Merge.Add s now m = some s1 ∧ s1.heap = s.heap ∧ s1.a = s.a ∧
      s1.nextAddr = s.nextAddr ∧
      s1.groupers p =
        { metrics := (s.groupers p).metrics ++ [(seriesID (s.heap m), ⟨now, m⟩)],
          ordered := (s.groupers p).ordered ++ [⟨now, m⟩] } ∧
      ∀ x, x ≠ p → s1.groupers x = s.groupers x := by
  refine ⟨_, Add_eq s p hp now m, ?_⟩
  have e := AddMetric_absent s.heap (s.groupers p) (⟨now, m⟩ : wallTimeMetric) ha
  rw [e]
  refine ⟨rfl, rfl, rfl, ?_, ?_⟩
  · simp [State.setGrouper, fingerprint_wtm]
  · intro x hx
    simp [State.setGrouper, hx]

theorem Add_present (s : State) (p : Nat) (hp : s.a.grouper = some p) (now : Int) (m : Ref)
    (x : wallTimeMetric)
    (ha : mapGet (s.groupers p).metrics (seriesID (s.heap m)) = some x) :
    ∃ s1, Merge.Add s now m = some s1 ∧
      s1.heap = mergeFields s.heap x.Metric (s.heap m).fields ∧ s1.a = s.a ∧
      s1.nextAddr = s.nextAddr ∧ s1.groupers = s.groupers := by
  refine ⟨_, Add_eq s p hp now m, ?_⟩
  have e := AddMetric_present s.heap (s.groupers p) (⟨now, m⟩ : wallTimeMetric) x ha
  rw [e]
  refine ⟨rfl, rfl, rfl, ?_⟩
  funext y
  by_cases hy : y = p
  · simp [State.setGrouper, hy]
  · simp [State.setGrouper, hy]

theorem heldBack_cons (cutoff : Int) (w : wallTimeMetric) (l : List wallTimeMetric) :
    heldBack cutoff (w :: l) =
      if w.wallTime > cutoff then w :: heldBack cutoff l else heldBack cutoff l := by
  by_cases h : w.wallTime > cutoff
  · simp [heldBack, List.filter_cons, h]
  · simp [heldBack, List.filter_cons, h]

theorem ready_cons (cutoff : Int) (w : wallTimeMetric) (l : List wallTimeMetric) :
    ready cutoff (w :: l) =
      if w.wallTime > cutoff then ready cutoff l else w :: ready cutoff l := by
  by_cases h : w.wallTime > cutoff
  · simp [ready, List.filter_cons, h]
  · simp [ready, List.filter_cons, h]

theorem pushLoop (cutoff : Int) (next : Nat) (l : List wallTimeMetric) :
    ∀ (st : State) (acc : Accumulator) (held0 : List wallTimeMetric),
      st.groupers next = grouperOf st.heap held0 →
      ((held0 ++ heldBack cutoff l).map (fingerprint st.heap)).Nodup →
      (l.foldl (Merge.pushStep cutoff next) (st, acc)).1.heap = st.heap ∧
      (l.foldl (Merge.pushStep cutoff next) (st, acc)).1.a = st.a ∧
      (l.foldl (Merge.pushStep cutoff next) (st, acc)).1.nextAddr = st.nextAddr ∧
      (l.foldl (Merge.pushStep cutoff next) (st, acc)).1.groupers next =
        grouperOf st.heap (held0 ++ heldBack cutoff l) ∧
      (∀ x, x ≠ next →
        (l.foldl (Merge.pushStep cutoff next) (st, acc)).1.groupers x = st.groupers x) ∧
      (l.foldl (Merge.pushStep cutoff next) (st, acc)).2 =
        { acc with
          metrics := acc.metrics ++ (ready cutoff l).map wallTimeMetric.Metric
          times := acc.times ++
            (ready cutoff l).map (fun w => (st.heap w.Metric).tm.Round acc.precision) } := by
  induction l with
  | nil =>
    intro st acc held0 hg _
    simp [heldBack, ready, hg]
  | cons w l ih =>
    intro st acc held0 hg hnd
    simp only [List.foldl_cons]
    by_cases hw : w.wallTime > cutoff
    · rw [heldBack_cons, if_pos hw] at hnd ⊢
      rw [ready_cons, if_pos hw]
      have hn : fingerprint st.heap w ∉ held0.map (fingerprint st.heap) := by
        intro hmem
        rw [List.map_append, List.map_cons, List.nodup_append] at hnd
        exact hnd.2.2 hmem (List.mem_cons_self _ _)
      have ha : mapGet (st.groupers next).metrics (fingerprint st.heap w) = none := by
        rw [hg]
        exact (mapGet_map_none _ _ _).mpr hn
      have e := AddMetric_absent st.heap (st.groupers next) w ha
      have hstep : Merge.pushStep cutoff next (st, acc) w =
          ({ st.setGrouper next (grouperOf st.heap (held0 ++ [w])) with heap := st.heap }, acc) := by
        simp only [Merge.pushStep, if_pos hw, e]
        simp [hg, grouperOf]
      rw [hstep]
      have hnd1 : (((held0 ++ [w]) ++ heldBack cutoff l).map (fingerprint st.heap)).Nodup := by
        simpa using hnd
      have r := ih ({ st.setGrouper next (grouperOf st.heap (held0 ++ [w])) with heap := st.heap })
        acc (held0 ++ [w]) (by simp [State.setGrouper]) hnd1
      obtain ⟨r1, r2, r3, r4, r5, r6⟩ := r
      refine ⟨r1, r2, r3, ?_, ?_, r6⟩
      · rw [r4]; simp
      · intro x hx
        rw [r5 x hx]
        simp [State.setGrouper, hx]
    · rw [heldBack_cons, if_neg hw] at hnd ⊢
      rw [ready_cons, if_neg hw]
      have hstep : Merge.pushStep cutoff next (st, acc) w =
          (st, acc.AddMetric st.heap w.Metric) := by
        simp only [Merge.pushStep, if_neg hw]
      rw [hstep]
      obtain ⟨r1, r2, r3, r4, r5, r6⟩ := ih st (acc.AddMetric st.heap w.Metric) held0 hg hnd
      refine ⟨r1, r2, r3, r4, r5, ?_⟩
      rw [r6]
      simp [Accumulator.AddMetric]

theorem heldBack_sublist (cutoff : Int) (l : List wallTimeMetric) :
    (heldBack cutoff l).Sublist l := List.filter_sublist l

theorem ready_sublist (cutoff : Int) (l : List wallTimeMetric) :
    (ready cutoff l).Sublist l := List.filter_sublist l

theorem Push_spec (s : State) (p : Nat) (hp : s.a.grouper = some p) (hlt : p < s.nextAddr)
    (w : (s.groupers p).WF s.heap) (now : Int) (acc : Accumulator) :
    ∃ s2 acc2, Merge.Push s now acc = some (s2, acc2) ∧ s2.heap = s.heap ∧
      s2.a = { s.a with nextGrouper := some s.nextAddr } ∧
      s2.nextAddr = s.nextAddr + 1 ∧
      s2.groupers s.nextAddr =
        grouperOf s.heap (heldBack (now + negDuration s.a.HoldTime) (s.groupers p).ordered) ∧
      (∀ x, x ≠ s.nextAddr → s2.groupers x = s.groupers x) ∧
      acc2 = { precision := 1
               metrics := acc.metrics ++
                 (ready (now + negDuration s.a.HoldTime) (s.groupers p).ordered).map
                   wallTimeMetric.Metric
               times := acc.times ++
                 (ready (now + negDuration s.a.HoldTime) (s.groupers p).ordered).map
                   (fun w => (s.heap w.Metric).tm.Round 1) } := by
  have hne : p ≠ s.nextAddr := Nat.ne_of_lt hlt
  have hnd : (([] ++ heldBack (now + negDuration s.a.HoldTime) (s.groupers p).ordered).map
      (fingerprint s.heap)).Nodup := by
    simpa using (List.Sublist.map _ (heldBack_sublist _ _)).nodup w.2
  have r := pushLoop (now + negDuration s.a.HoldTime) s.nextAddr (s.groupers p).ordered
    { (s.alloc).1 with a := { (s.alloc).1.a with nextGrouper := some s.nextAddr } }
    (acc.SetPrecision 1) []
    (by simp [State.alloc, State.setGrouper, grouperOf, NewSeriesGrouper])
    (by simpa [State.alloc, State.setGrouper] using hnd)
  have hP : Merge.Push s now acc = some
      ((s.groupers p).ordered.foldl (Merge.pushStep (now + negDuration s.a.HoldTime) s.nextAddr)
        ({ (s.alloc).1 with a := { (s.alloc).1.a with nextGrouper := some s.nextAddr } },
          acc.SetPrecision 1)) := by
    simp [Merge.Push, State.alloc, State.setGrouper, hp, hne, SeriesGrouper.Metrics]
  obtain ⟨r1, r2, r3, r4, r5, r6⟩ := r
  refine ⟨_, _, hP, ?_, ?_, ?_, ?_, ?_, ?_⟩
  · rw [r1]; rfl
  · rw [r2]; rfl
  · rw [r3]; rfl
  · rw [r4]; simp [State.alloc, State.setGrouper]
  · intro x hx
    rw [r5 x hx]
    simp [State.alloc, State.setGrouper, hx]
  · rw [r6]
    simp [Accumulator.SetPrecision, State.alloc, State.setGrouper]

theorem Push_none (s : State) (hp : s.a.grouper = none) (now : Int) (acc : Accumulator) :
    Merge.Push s now acc = none := by
  simp [Merge.Push, State.alloc, State.setGrouper, hp]

theorem Add_none (s : State) (hp : s.a.grouper = none) (now : Int) (m : Ref) :
    Merge.Add s now m = none := by
  simp [Merge.Add, hp]

theorem Reachable.inv {s : State} (hs : Reachable s) : s.Inv := by
  induction hs with
  | zero heap groupers nextAddr d =>
    exact ⟨fun p hp => by simp at hp, fun p hp => by simp at hp⟩
  | @init s0 _ ih =>
    constructor
    · intro p hp
      simp only [Merge.Init, State.alloc, State.setGrouper, Option.some.injEq] at hp
      subst hp
      refine ⟨by simp [Merge.Init, State.alloc], ?_⟩
      simp only [Merge.Init, State.alloc, State.setGrouper, if_true]
      exact WF_new _
    · intro p hp
      have hp0 : s0.a.nextGrouper = some p := by
        simpa [Merge.Init, State.alloc, State.setGrouper] using hp
      obtain ⟨h1, h2⟩ := ih.2 p hp0
      have hne : p ≠ s0.nextAddr := Nat.ne_of_lt h1
      refine ⟨by simp only [Merge.Init, State.alloc]; omega, ?_⟩
      simpa [Merge.Init, State.alloc, State.setGrouper, hne] using h2
  | @add s0 s1 now m _ hadd ih =>
    cases hg : s0.a.grouper with
    | none => rw [Add_none s0 hg] at hadd; simp at hadd
    | some p =>
      rw [Add_eq s0 p hg] at hadd
      simp only [Option.some.injEq] at hadd
      subst hadd
      obtain ⟨h1, h2⟩ := ih.1 p hg
      have key : ∀ q, q < s0.nextAddr → (s0.groupers q).WF s0.heap →
          ((if q = p then (SeriesGrouper.AddMetric s0.heap (s0.groupers p) ⟨now, m⟩).2
            else s0.groupers q)).WF
            (SeriesGrouper.AddMetric s0.heap (s0.groupers p) ⟨now, m⟩).1 := by
        intro q _ hq
        by_cases e : q = p
        · rw [if_pos e]; exact AddMetric_WF _ _ _ h2
        · rw [if_neg e]; exact WF_congr (AddMetric_sameIds _ _ _) _ hq
      constructor
      · intro q hq
        have hq0 : s0.a.grouper = some q := hq
        obtain ⟨a1, a2⟩ := ih.1 q hq0
        exact ⟨a1, key q a1 a2⟩
      · intro q hq
        have hq0 : s0.a.nextGrouper = some q := hq
        obtain ⟨a1, a2⟩ := ih.2 q hq0
        exact ⟨a1, key q a1 a2⟩
  | @push s0 s1 now acc acc1 _ hpush ih =>
    cases hg : s0.a.grouper with
    | none => rw [Push_none s0 hg] at hpush; simp at hpush
    | some p =>
      obtain ⟨h1, h2⟩ := ih.1 p hg
      obtain ⟨s2, acc2, e, r1, r2, r3, r4, r5, _⟩ := Push_spec s0 p hg h1 h2 now acc
      rw [e] at hpush
      simp only [Option.some.injEq, Prod.mk.injEq] at hpush
      obtain ⟨e1, _⟩ := hpush
      subst e1
      constructor
      · intro q hq
        rw [r2] at hq
        have hq0 : s0.a.grouper = some q := hq
        obtain ⟨a1, a2⟩ := ih.1 q hq0
        refine ⟨by rw [r3]; omega, ?_⟩
        rw [r5 q (Nat.ne_of_lt a1), r1]
        exact a2
      · intro q hq
        rw [r2] at hq
        simp only [Option.some.injEq] at hq
        subst hq
        refine ⟨by rw [r3]; omega, ?_⟩
        rw [r4, r1]
        exact WF_grouperOf _ _ ((List.Sublist.map _ (heldBack_sublist _ _)).nodup h2.2)
  | reset _ ih =>
    exact ⟨fun p hp => ih.2 p hp, fun p hp => ih.2 p hp⟩

theorem Init_spec (s : State) :
    (Merge.Init s).heap = s.heap ∧
      (Merge.Init s).a = { s.a with grouper := some s.nextAddr } ∧
      (Merge.Init s).nextAddr = s.nextAddr + 1 ∧
      (Merge.Init s).groupers s.nextAddr = NewSeriesGrouper ∧
      ∀ x, x ≠ s.nextAddr → (Merge.Init s).groupers x = s.groupers x := by
  refine ⟨rfl, rfl, rfl, ?_, ?_⟩
  · simp [Merge.Init, State.alloc, State.setGrouper]
  · intro x hx
    simp [Merge.Init, State.alloc, State.setGrouper, hx]

theorem ready_of_all (cutoff : Int) (l : List wallTimeMetric)
    (h : ∀ w ∈ l, w.wallTime ≤ cutoff) : ready cutoff l = l ∧ heldBack cutoff l = [] := by
  constructor
  · apply List.filter_eq_self.mpr
    intro w hw
    have := h w hw
    simp only [Bool.not_eq_true', decide_eq_false_iff_not, not_lt, ge_iff_le, gt_iff_lt]
    exact this
  · apply List.filter_eq_nil_iff.mpr
    intro w hw
    have := h w hw
    simp only [decide_eq_true_eq, gt_iff_lt, not_lt]
    exact this

/-! ## The claims -/

/-- Merging of two records whose `time.Time` values agree, location included. On
a `Merge` just initialised with `HoldTime = 0`, adding two records `r1`, `r2` of
the same name, tag list and time value and then pushing at a clock reading not
earlier than both adds hands exactly one record to the accumulator, `r1`; it
keeps its name, tags and time, its field keys are those of `r1` together with
those of `r2`, every field of `r2` is found in it with the value of `r2`, and a
key that `r2` does not have keeps the value of `r1`. -/
theorem merge_same_time_value (s : State) (acc : Accumulator) (r1 r2 : Ref) (T1 T2 now : Int)
    (hH : s.a.HoldTime = 0) (hid : (s.heap r2).identity = (s.heap r1).identity)
    (hk : (fieldKeys (s.heap r2).fields).Nodup) (h1 : T1 ≤ now) (_h2 : T2 ≤ now) :
    ∃ s3 acc3,
      ((Merge.Add (Merge.Init s) T1 r1).bind (fun s1 => Merge.Add s1 T2 r2)).bind
          (fun s2 => Merge.Push s2 now acc) = some (s3, acc3) ∧
      acc3.metrics = acc.metrics ++ [r1] ∧
      (s3.heap r1).identity = (s.heap r1).identity ∧
      (∀ k, k ∈ fieldKeys (s3.heap r1).fields ↔
          k ∈ fieldKeys (s.heap r1).fields ∨ k ∈ fieldKeys (s.heap r2).fields) ∧
      (∀ f ∈ (s.heap r2).fields, getField (s3.heap r1).fields f.Key = some f.Value) ∧
      (∀ k, k ∉ fieldKeys (s.heap r2).fields →
          getField (s3.heap r1).fields k = getField (s.heap r1).fields k) := by
  obtain ⟨i1, i2, i3, i4, _⟩ := Init_spec s
  have hg0 : (Merge.Init s).a.grouper = some s.nextAddr := by rw [i2]
  have ha1 : mapGet ((Merge.Init s).groupers s.nextAddr).metrics
      (seriesID ((Merge.Init s).heap r1)) = none := by rw [i4]; rfl
  obtain ⟨s1, e1, a1, a2, a3, a4, _⟩ := Add_absent (Merge.Init s) s.nextAddr hg0 T1 r1 ha1
  have hg1 : s1.a.grouper = some s.nextAddr := by rw [a2]; exact hg0
  have hfp : seriesID (s1.heap r2) = seriesID (s.heap r1) := by
    rw [a1, i1]; exact seriesID_congr _ _ hid
  have hgr : s1.groupers s.nextAddr =
      grouperOf s.heap [(⟨T1, r1⟩ : wallTimeMetric)] := by
    rw [a4, i4, i1]; rfl
  have ha2 : mapGet (s1.groupers s.nextAddr).metrics (seriesID (s1.heap r2)) =
      some ⟨T1, r1⟩ := by
    rw [hgr, hfp]; simp [grouperOf, mapGet, fingerprint_wtm]
  obtain ⟨s2, e2, b1, b2, b3, b4⟩ := Add_present s1 s.nextAddr hg1 T2 r2 ⟨T1, r1⟩ ha2
  have hg2 : s2.a.grouper = some s.nextAddr := by rw [b2]; exact hg1
  have hsame : SameIds s.heap s2.heap := by
    rw [b1, a1, i1]; exact mergeFields_sameIds _ _ _
  have hwf : (s2.groupers s.nextAddr).WF s2.heap := by
    rw [b4, hgr]
    exact WF_congr hsame _ (WF_grouperOf _ _ (by simp))
  obtain ⟨s3, acc3, e3, c1, _, _, _, _, c6⟩ :=
    Push_spec s2 s.nextAddr hg2 (by rw [b3, a3, i3]; omega) hwf now acc
  have hH2 : s2.a.HoldTime = 0 := by rw [b2, a2, i2]; exact hH
  have hrd : ready (now + negDuration s2.a.HoldTime) (s2.groupers s.nextAddr).ordered =
      [(⟨T1, r1⟩ : wallTimeMetric)] := by
    rw [b4, hgr, hH2, negDuration_zero]
    refine (ready_of_all _ _ ?_).1
    intro w hw
    simp only [grouperOf, List.mem_singleton] at hw
    subst hw
    simpa using h1
  have hheap : s3.heap r1 =
      { s.heap r1 with fields := addFields (s.heap r1).fields (s.heap r2).fields } := by
    rw [c1, b1, a1, i1, mergeFields_apply]
    simp
  refine ⟨s3, acc3, ?_, ?_, ?_, ?_, ?_, ?_⟩
  · rw [e1, Option.some_bind, e2, Option.some_bind, e3]
  · rw [c6, hrd]; rfl
  · rw [hheap]; rfl
  · intro k
    rw [hheap]
    exact mem_fieldKeys_addFields _ _ _
  · intro f hf
    rw [hheap]
    exact getField_addFields_of_mem _ _ hk f hf
  · intro k hk1
    rw [hheap]
    exact getField_addFields_of_not_mem _ _ _ hk1

/-- The records of `TestSimple`: their time values agree and they merge. -/
theorem merge_same_time_value_example :
    (exState 0).a.HoldTime = 0 ∧
      ((exState 0).heap 1).identity = ((exState 0).heap 0).identity ∧
      (fieldKeys ((exState 0).heap 1).fields).Nodup ∧ (5 : Int) ≤ 7 ∧ (6 : Int) ≤ 7 ∧
      ∃ s3 acc3,
        ((Merge.Add (Merge.Init (exState 0)) 5 0).bind (fun s1 => Merge.Add s1 6 1)).bind
            (fun s2 => Merge.Push s2 7 ⟨1000000000, [], []⟩) = some (s3, acc3) ∧
        acc3.metrics = (⟨1000000000, [], []⟩ : Accumulator).metrics ++ [0] ∧
        (s3.heap 0).identity = ((exState 0).heap 0).identity ∧
        (∀ k, k ∈ fieldKeys (s3.heap 0).fields ↔
            k ∈ fieldKeys ((exState 0).heap 0).fields ∨
              k ∈ fieldKeys ((exState 0).heap 1).fields) ∧
        (∀ f ∈ ((exState 0).heap 1).fields,
            getField (s3.heap 0).fields f.Key = some f.Value) ∧
        (∀ k, k ∉ fieldKeys ((exState 0).heap 1).fields →
            getField (s3.heap 0).fields k = getField ((exState 0).heap 0).fields k) :=
  ⟨rfl, by decide, by decide, by decide, by decide,
    merge_same_time_value (exState 0) ⟨1000000000, [], []⟩ 0 1 5 6 7 rfl (by decide) (by decide)
      (by decide) (by decide)⟩

/-- C1, the code at the failing input: the records at addresses 0 and 8 have the
same name, the same tags and the same timestamp (the same seconds and
nanoseconds, hence the same `UnixNano`), the first in a zone at offset 0
(`time.Unix(0, 0)`), the second in the `UTC` location (`time.Unix(0, 0).UTC()`).
The fingerprints of `AddMetric` differ, since `MarshalBinary` writes the zone
offset, whereas `groupID` gives both the same value. On a `Merge` just
initialised with `HoldTime = 0`, `Add` of the one at 5, `Add` of the other at 6
and `Push` at 7 hand two records to the accumulator, each with its own field
only: nothing was merged. -/
theorem same_instant_not_merged :
    (exHeapMore 0).name = (exHeapMore 8).name ∧ (exHeapMore 0).tags = (exHeapMore 8).tags ∧
      (exHeapMore 0).tm.sec = (exHeapMore 8).tm.sec ∧
      (exHeapMore 0).tm.nsec = (exHeapMore 8).tm.nsec ∧
      (exHeapMore 0).tm.UnixNano = (exHeapMore 8).tm.UnixNano ∧
      (exHeapMore 0).tm.MarshalBinary ≠ (exHeapMore 8).tm.MarshalBinary ∧
      seriesID (exHeapMore 0) ≠ seriesID (exHeapMore 8) ∧
      groupID (exHeapMore 0).name (exHeapMore 0).tags (exHeapMore 0).tm =
        groupID (exHeapMore 8).name (exHeapMore 8).tags (exHeapMore 8).tm ∧
      (exStateMore 0).a.HoldTime = 0 ∧
      (((Merge.Add (Merge.Init (exStateMore 0)) 5 0).bind (fun s1 => Merge.Add s1 6 8)).bind
          (fun s2 => Merge.Push s2 7 ⟨0, [], []⟩)).map
        (fun x => (x.2.metrics, (x.1.heap 0).fields, (x.1.heap 8).fields)) =
      some ([0, 8], [⟨"time_idle", .int 42⟩], [⟨"time_guest", .int 42⟩]) := by
  refine ⟨rfl, rfl, rfl, rfl, rfl, ?_, ?_, rfl, rfl, ?_⟩
  · decide
  · set_option maxRecDepth 100000 in decide
  · set_option maxRecDepth 100000 in decide

/-- C2 as stated fails: the records at addresses 4 and 5 of the example heap
differ in name and in tags (name `a\nb\nc` without tags, name `a` with the
tag `b=c`), yet `AddMetric` gives both the same fingerprint, keeps a single
record in `Metrics()` and merges the field of the second into the first. -/
theorem identity_isolation_counterexample :
    (exHeap 4).name ≠ (exHeap 5).name ∧ (exHeap 4).tags ≠ (exHeap 5).tags ∧
      seriesID (exHeap 4) = seriesID (exHeap 5) ∧
      (addAll exHeap NewSeriesGrouper [(4 : Ref), 5]).2.Metrics = [4] ∧
      ((addAll exHeap NewSeriesGrouper [(4 : Ref), 5]).1 4).fields =
        [⟨"x", .int 1⟩, ⟨"y", .int 2⟩] := by
  set_option maxRecDepth 100000 in
  refine ⟨by decide, by decide, by decide, ?_, ?_⟩
  · set_option maxRecDepth 100000 in decide
  · set_option maxRecDepth 100000 in decide

/-- C2, amended (identity isolation up to the fingerprint). Two records whose
fingerprints differ are kept as two separate records of `Metrics()`, in the
order of the calls, whichever is added first, and no record on the heap is
changed: no field of one is merged into the other. -/
theorem identity_isolation (h : Heap) (r1 r2 : Ref)
    (hne : seriesID (h r1) ≠ seriesID (h r2)) :
    (addAll h NewSeriesGrouper [r1, r2]).2.Metrics = [r1, r2] ∧
      (addAll h NewSeriesGrouper [r1, r2]).1 = h ∧
      (addAll h NewSeriesGrouper [r2, r1]).2.Metrics = [r2, r1] ∧
      (addAll h NewSeriesGrouper [r2, r1]).1 = h := by
  have key : ∀ a b : Ref, seriesID (h a) ≠ seriesID (h b) →
      addAll h NewSeriesGrouper [a, b] =
        (h, { metrics := [(seriesID (h a), a), (seriesID (h b), b)], ordered := [a, b] }) := by
    intro a b hab
    have e1 : SeriesGrouper.AddMetric h (NewSeriesGrouper : SeriesGrouper Ref) a =
        (h, { metrics := [(seriesID (h a), a)], ordered := [a] }) :=
      AddMetric_absent h NewSeriesGrouper a rfl
    have e2 : SeriesGrouper.AddMetric h
        ({ metrics := [(seriesID (h a), a)], ordered := [a] } : SeriesGrouper Ref) b =
        (h, { metrics := [(seriesID (h a), a), (seriesID (h b), b)], ordered := [a, b] }) := by
      apply AddMetric_absent
      show mapGet [(seriesID (h a), a)] (seriesID (h b)) = none
      simp [mapGet, hab]
    simp only [addAll, List.foldl_cons, List.foldl_nil, e1, e2]
  rw [key r1 r2 hne, key r2 r1 (fun e => hne e.symm)]
  exact ⟨rfl, rfl, rfl, rfl⟩

/-- Witness of the amended C2: two records of `TestHoldTime` that differ in
their timestamp only. -/
theorem identity_isolation_witness :
    seriesID (exHeap 0) ≠ seriesID (exHeap 2) ∧
      (addAll exHeap NewSeriesGrouper [(0 : Ref), 2]).2.Metrics = [0, 2] ∧
      (addAll exHeap NewSeriesGrouper [(0 : Ref), 2]).1 = exHeap ∧
      (addAll exHeap NewSeriesGrouper [(2 : Ref), 0]).2.Metrics = [2, 0] ∧
      (addAll exHeap NewSeriesGrouper [(2 : Ref), 0]).1 = exHeap :=
  ⟨by set_option maxRecDepth 100000 in decide,
    identity_isolation exHeap 0 2 (by set_option maxRecDepth 100000 in decide)⟩

theorem firstSeenAux_congr {α : Type} (key key1 : α → Nat) (hk : ∀ x, key1 x = key x)
    (seen : List Nat) (xs : List α) : firstSeenAux key1 seen xs = firstSeenAux key seen xs := by
  induction xs generalizing seen with
  | nil => rfl
  | cons x xs ih => simp only [firstSeenAux, hk x, ih]

theorem firstSeenAux_sublist {α : Type} (key : α → Nat) (seen : List Nat) (xs : List α) :
    (firstSeenAux key seen xs).Sublist xs := by
  induction xs generalizing seen with
  | nil => exact List.Sublist.slnil
  | cons x xs ih =>
    unfold firstSeenAux
    split
    · exact List.Sublist.cons _ (ih seen)
    · exact List.Sublist.cons₂ _ (ih _)

theorem firstSeenAux_cover {α : Type} (key : α → Nat) (seen : List Nat) (xs : List α)
    (x : α) (hx : x ∈ xs) : key x ∈ seen ∨ key x ∈ (firstSeenAux key seen xs).map key := by
  induction xs generalizing seen with
  | nil => simp at hx
  | cons y ys ih =>
    unfold firstSeenAux
    rcases List.mem_cons.mp hx with rfl | hx1
    · by_cases hy : key x ∈ seen
      · exact Or.inl hy
      · right; simp [hy]
    · by_cases hy : key y ∈ seen
      · simp only [hy, if_true]; exact ih seen hx1
      · simp only [hy, if_false, List.map_cons, List.mem_cons]
        rcases ih (seen ++ [key y]) hx1 with h | h
        · rcases List.mem_append.mp h with h1 | h1
          · exact Or.inl h1
          · right; left; simpa using h1
        · right; right; exact h

theorem addAll_spec {M : Type} [IsMetric M] (ms : List M) :
    ∀ (h : Heap) (g : SeriesGrouper M), g.WF h →
      (addAll h g ms).2.ordered =
          g.ordered ++ firstSeenAux (fingerprint h) (g.ordered.map (fingerprint h)) ms ∧
        SameIds h (addAll h g ms).1 ∧ (addAll h g ms).2.WF (addAll h g ms).1 := by
  induction ms with
  | nil =>
    intro h g w
    exact ⟨by simp [addAll, firstSeenAux], SameIds.refl h, w⟩
  | cons m ms ih =>
    intro h g w
    have hstep : addAll h g (m :: ms) =
        addAll (SeriesGrouper.AddMetric h g m).1 (SeriesGrouper.AddMetric h g m).2 ms := rfl
    rw [hstep]
    have w1 := AddMetric_WF h g m w
    have sid := AddMetric_sameIds h g m
    obtain ⟨r1, r2, r3⟩ := ih _ _ w1
    refine ⟨?_, sid.trans r2, r3⟩
    rw [r1]
    have hfun : (fingerprint (SeriesGrouper.AddMetric h g m).1 : M → Nat) = fingerprint h :=
      funext fun x => sid.fingerprint x
    rw [hfun]
    cases ha : mapGet g.metrics (fingerprint h m) with
    | none =>
      have hn : fingerprint h m ∉ g.ordered.map (fingerprint h) := by
        rw [w.1] at ha
        exact (mapGet_map_none _ _ _).mp ha
      rw [AddMetric_absent h g m ha]
      simp [firstSeenAux, hn]
    | some x =>
      have hx := mapGet_map_some (fingerprint h) g.ordered (fingerprint h m) x (by rw [← w.1]; exact ha)
      have hin : fingerprint h m ∈ g.ordered.map (fingerprint h) := by
        rw [← hx.2]; exact List.mem_map_of_mem _ hx.1
      rw [AddMetric_present h g m x ha]
      simp [firstSeenAux, hin]

/-- C5 (order preservation). After any sequence `ms` of `AddMetric` calls on a new
grouper, `Metrics()` is the subsequence of `ms` that holds, for every distinct
fingerprint, the metric that introduced it, in the order of introduction: the
fingerprints of `Metrics()` are pairwise distinct and every fingerprint of `ms`
is among them. An `AddMetric` whose fingerprint is already present leaves map
and slice, hence the length and the order of `Metrics()`, as they were.
`Metrics()` only reads the slice. -/
theorem order_preservation {M : Type} [IsMetric M] (h : Heap) (ms : List M) :
    (addAll h NewSeriesGrouper ms).2.Metrics = firstSeen (fingerprint h) ms ∧
      (addAll h NewSeriesGrouper ms).2.Metrics.Sublist ms ∧
      ((addAll h NewSeriesGrouper ms).2.Metrics.map (fingerprint h)).Nodup ∧
      (∀ m ∈ ms, fingerprint h m ∈ (addAll h NewSeriesGrouper ms).2.Metrics.map (fingerprint h)) ∧
      (∀ m : M,
        fingerprint h m ∈ (addAll h NewSeriesGrouper ms).2.Metrics.map (fingerprint h) →
        (SeriesGrouper.AddMetric (addAll h NewSeriesGrouper ms).1
            (addAll h NewSeriesGrouper ms).2 m).2 = (addAll h NewSeriesGrouper ms).2) ∧
      (addAll h NewSeriesGrouper ms).2.Metrics = (addAll h NewSeriesGrouper ms).2.ordered := by
  obtain ⟨r1, r2, r3⟩ := addAll_spec ms h NewSeriesGrouper (WF_new h)
  have hfun : (fingerprint (addAll h NewSeriesGrouper ms).1 : M → Nat) = fingerprint h :=
    funext fun x => r2.fingerprint x
  have e : (addAll h NewSeriesGrouper ms).2.Metrics = firstSeen (fingerprint h) ms := by
    simpa [SeriesGrouper.Metrics, NewSeriesGrouper, firstSeen] using r1
  refine ⟨e, ?_, ?_, ?_, ?_, rfl⟩
  · rw [e]; exact firstSeenAux_sublist _ _ _
  · have := r3.2
    rw [hfun] at this
    exact this
  · intro m hm
    rw [e]
    rcases firstSeenAux_cover (fingerprint h) [] ms m hm with h1 | h1
    · simp at h1
    · exact h1
  · intro m hm
    have hm1 : fingerprint (addAll h NewSeriesGrouper ms).1 m ∈
        (addAll h NewSeriesGrouper ms).2.ordered.map
          (fingerprint (addAll h NewSeriesGrouper ms).1) := by
      rw [hfun]; exact hm
    cases ha : mapGet (addAll h NewSeriesGrouper ms).2.metrics
        (fingerprint (addAll h NewSeriesGrouper ms).1 m) with
    | none =>
      rw [r3.1] at ha
      exact absurd hm1 ((mapGet_map_none _ _ _).mp ha)
    | some x => rw [AddMetric_present _ _ m x ha]

/-- Witness of C5: the three records of `TestHoldTime`, the third merging into
the first. -/
theorem order_preservation_witness :
    (addAll exHeap NewSeriesGrouper [(0 : Ref), 2, 3]).2.Metrics = [0, 2] ∧
      (addAll exHeap NewSeriesGrouper [(0 : Ref), 2, 3]).2.Metrics =
        firstSeen (fingerprint exHeap) [(0 : Ref), 2, 3] :=
  ⟨by set_option maxRecDepth 100000 in decide,
    (order_preservation exHeap [(0 : Ref), 2, 3]).1⟩

theorem entry_unique (h : Heap) (l : List wallTimeMetric)
    (hnd : (l.map (fingerprint h)).Nodup) (w w1 : wallTimeMetric) (hw : w ∈ l) (hw1 : w1 ∈ l)
    (e : w1.Metric = w.Metric) : w1 = w :=
  List.inj_on_of_nodup_map hnd hw1 hw (by simp [fingerprint_wtm, e])

theorem gate_entry (h : Heap) (l : List wallTimeMetric)
    (hnd : (l.map (fingerprint h)).Nodup) (cutoff : Int) (w : wallTimeMetric) (hw : w ∈ l) :
    (cutoff < w.wallTime →
        w ∈ heldBack cutoff l ∧ w.Metric ∉ (ready cutoff l).map wallTimeMetric.Metric) ∧
      (w.wallTime ≤ cutoff →
        w.Metric ∈ (ready cutoff l).map wallTimeMetric.Metric ∧ w ∉ heldBack cutoff l) := by
  constructor
  · intro hc
    refine ⟨by simp [heldBack, hw, hc], ?_⟩
    intro hmem
    obtain ⟨w1, hw1, e⟩ := List.mem_map.mp hmem
    have hw1l : w1 ∈ l := (ready_sublist cutoff l).subset hw1
    have := entry_unique h l hnd w w1 hw hw1l e
    subst this
    simp [ready] at hw1
    omega
  · intro hc
    refine ⟨List.mem_map.mpr ⟨w, by simp [ready, hw, hc], rfl⟩, ?_⟩
    intro hmem
    simp [heldBack] at hmem
    omega

/-- C3 as stated fails at the least hold time: with `HoldTime = math.MinInt64`
the negation `-a.HoldTime` in `Push` wraps to `math.MinInt64` again. The record
at address 0 is added at clock reading 5 and the push comes at clock reading 7,
which is not earlier than `5 + HoldTime`; yet the push hands nothing to the
accumulator and stages the entry. -/
theorem hold_time_gating_counterexample :
    (5 : Int) + (exState (-9223372036854775808)).a.HoldTime ≤ 7 ∧
      negDuration (exState (-9223372036854775808)).a.HoldTime = -9223372036854775808 ∧
      ((Merge.Add (Merge.Init (exState (-9223372036854775808))) 5 0).bind
          (fun s1 => Merge.Push s1 7 ⟨0, [], []⟩)).map
        (fun x => (x.2.metrics, x.1.a.nextGrouper, (x.1.groupers 1).Metrics)) =
      some ([], some 1, [⟨5, 0⟩]) := by
  refine ⟨by decide, by decide, ?_⟩
  set_option maxRecDepth 100000 in decide

/-- C3, amended (hold-time gating for every hold time but the least). On a
reachable `Merge` whose `HoldTime` is a 64-bit duration other than the least
(`math.MinInt64`), so that `Push` negates it without wrapping, an `Add` at
clock reading `T` of a record whose fingerprint is not yet in the current
grouper creates the entry stamped `T`; a `Push` at clock reading `now` then
stages the entry and does not hand the record over when `now < T + HoldTime`,
and hands the record to the accumulator, without staging it, when
`now ≥ T + HoldTime`. -/
theorem hold_time_gating (s : State) (hs : Reachable s) (p : Nat)
    (hp : s.a.grouper = some p) (hN : Negatable s.a.HoldTime) (T : Int) (r : Ref)
    (hnew : mapGet (s.groupers p).metrics (seriesID (s.heap r)) = none) (now : Int)
    (acc : Accumulator) :
    ∃ s1 s2 acc2 q delivered,
      Merge.Add s T r = some s1 ∧ s1.a.grouper = some p ∧
      (⟨T, r⟩ : wallTimeMetric) ∈ (s1.groupers p).Metrics ∧
      Merge.Push s1 now acc = some (s2, acc2) ∧ s2.a.nextGrouper = some q ∧
      acc2.metrics = acc.metrics ++ delivered ∧
      (now < T + s.a.HoldTime →
        r ∉ delivered ∧ (⟨T, r⟩ : wallTimeMetric) ∈ (s2.groupers q).Metrics) ∧
      (T + s.a.HoldTime ≤ now →
        r ∈ delivered ∧ (⟨T, r⟩ : wallTimeMetric) ∉ (s2.groupers q).Metrics) := by
  obtain ⟨s1, e1, a1, a2, a3, a4, _⟩ := Add_absent s p hp T r hnew
  have hg1 : s1.a.grouper = some p := by rw [a2]; exact hp
  have hr1 : Reachable s1 := Reachable.add T r hs e1
  obtain ⟨hlt, hwf⟩ := hr1.inv.1 p hg1
  obtain ⟨s2, acc2, e2, c1, c2, c3, c4, c5, c6⟩ := Push_spec s1 p hg1 hlt hwf now acc
  have hin : (⟨T, r⟩ : wallTimeMetric) ∈ (s1.groupers p).ordered := by
    rw [a4]; simp
  obtain ⟨g1, g2⟩ := gate_entry s1.heap _ hwf.2 (now + negDuration s1.a.HoldTime) ⟨T, r⟩ hin
  refine ⟨s1, s2, acc2, s1.nextAddr, _, e1, hg1, hin, e2, by rw [c2], by rw [c6], ?_, ?_⟩
  · intro hlt1
    rw [c4]
    have := g1 (by rw [a2, negDuration_eq _ hN]; show now + -s.a.HoldTime < T; omega)
    exact ⟨this.2, this.1⟩
  · intro hge
    rw [c4]
    exact g2 (by rw [a2, negDuration_eq _ hN]; show T ≤ now + -s.a.HoldTime; omega)

/-- Witness of the amended C3: a hold time of 10 on the example state, the
record added at clock reading 5 and the push at clock reading 7. -/
theorem hold_time_gating_witness :
    Reachable (Merge.Init (exState 10)) ∧
      (Merge.Init (exState 10)).a.grouper = some 0 ∧
      Negatable (Merge.Init (exState 10)).a.HoldTime ∧
      mapGet ((Merge.Init (exState 10)).groupers 0).metrics
        (seriesID ((Merge.Init (exState 10)).heap 0)) = none ∧
      ∃ s1 s2 acc2 q delivered,
        Merge.Add (Merge.Init (exState 10)) 5 0 = some s1 ∧ s1.a.grouper = some 0 ∧
        (⟨5, 0⟩ : wallTimeMetric) ∈ (s1.groupers 0).Metrics ∧
        Merge.Push s1 7 ⟨0, [], []⟩ = some (s2, acc2) ∧ s2.a.nextGrouper = some q ∧
        acc2.metrics = (⟨0, [], []⟩ : Accumulator).metrics ++ delivered ∧
        ((7 : Int) < 5 + (Merge.Init (exState 10)).a.HoldTime →
          0 ∉ delivered ∧ (⟨5, 0⟩ : wallTimeMetric) ∈ (s2.groupers q).Metrics) ∧
        ((5 : Int) + (Merge.Init (exState 10)).a.HoldTime ≤ 7 →
          0 ∈ delivered ∧ (⟨5, 0⟩ : wallTimeMetric) ∉ (s2.groupers q).Metrics) :=
  ⟨Reachable.init (Reachable.zero _ _ _ _), rfl, by decide, rfl,
    hold_time_gating (Merge.Init (exState 10)) (Reachable.init (Reachable.zero _ _ _ _)) 0 rfl
      (by decide) 5 0 rfl 7 ⟨0, [], []⟩⟩

theorem addMany_merges (p : Nat) (w : wallTimeMetric) (merges : List (Int × Ref)) :
    ∀ s1 : State, Reachable s1 → s1.a.grouper = some p → w ∈ (s1.groupers p).ordered →
      (∀ x ∈ merges, (s1.heap x.2).identity = (s1.heap w.Metric).identity) →
      ∃ s2, addMany s1 merges = some s2 ∧ Reachable s2 ∧ s2.groupers = s1.groupers ∧
        s2.a = s1.a ∧ s2.nextAddr = s1.nextAddr ∧ SameIds s1.heap s2.heap := by
  induction merges with
  | nil =>
    intro s1 hr _ _ _
    exact ⟨s1, rfl, hr, rfl, rfl, rfl, SameIds.refl _⟩
  | cons x rest ih =>
    intro s1 hr hg hw hx
    obtain ⟨now, m⟩ := x
    obtain ⟨_, hwf⟩ := hr.inv.1 p hg
    have hid := hx (now, m) (List.mem_cons_self _ _)
    have hget : mapGet (s1.groupers p).metrics (seriesID (s1.heap m)) = some w := by
      rw [hwf.1, seriesID_congr _ _ hid]
      exact mapGet_map_of_mem (fingerprint s1.heap) _ w hw hwf.2
    obtain ⟨sa, ea, b1, b2, b3, b4⟩ := Add_present s1 p hg now m w hget
    have hsame : SameIds s1.heap sa.heap := by rw [b1]; exact mergeFields_sameIds _ _ _
    have hra : Reachable sa := Reachable.add now m hr ea
    obtain ⟨s2, e2, r2, c1, c2, c3, c4⟩ := ih sa hra (by rw [b2]; exact hg)
      (by rw [b4]; exact hw)
      (by
        intro y hy
        rw [hsame y.2, hsame w.Metric]
        exact hx y (List.mem_cons_of_mem _ hy))
    refine ⟨s2, ?_, r2, by rw [c1, b4], by rw [c2, b2], by rw [c3, b3], hsame.trans c4⟩
    simp only [addMany, ea, Option.some_bind, e2]

/-- C7 as stated fails: with a hold time of 3, the record at address 0 is added
at clock reading 0 and the record at address 3, of the same identity, is merged
into it at clock reading 5; the push at clock reading 7 is earlier than
`5 + 3`, yet it hands the merged record to the accumulator and stages nothing. -/
theorem quiet_period_counterexample :
    (0 : Int) ≤ 5 ∧ (5 : Int) ≤ 7 ∧ (7 : Int) < 5 + (exState 3).a.HoldTime ∧
      (exHeap 3).identity = (exHeap 0).identity ∧
      (((Merge.Add (Merge.Init (exState 3)) 0 0).bind (fun s1 => Merge.Add s1 5 3)).bind
        (fun s2 => Merge.Push s2 7 ⟨0, [], []⟩)).map
          (fun x => (x.2.metrics, (x.1.groupers 1).Metrics, (x.1.heap 0).fields)) =
        some ([0], [], [⟨"time_idle", .int 42⟩, ⟨"time_user", .int 53⟩]) := by
  refine ⟨by decide, by decide, by decide, by decide, ?_⟩
  set_option maxRecDepth 100000 in decide

/-- C7, amended (the hold time runs from the creating `Add`). On a reachable
`Merge` whose `HoldTime` is a 64-bit duration other than the least
(`math.MinInt64`), so that `Push` negates it without wrapping, after the `Add`
at clock reading `T` that creates the entry of a record and any number of later
`Add` calls, at any clock readings, of records of the same identity, the slice
of the current grouper is as the creating `Add` left it; a `Push` at
`now < T + HoldTime` stages the entry and does not hand the record over, and a
`Push` at `now ≥ T + HoldTime` hands it over, whenever the merges took place. -/
theorem quiet_period_from_creation (s : State) (hs : Reachable s) (p : Nat)
    (hp : s.a.grouper = some p) (hN : Negatable s.a.HoldTime) (T : Int) (r : Ref)
    (hnew : mapGet (s.groupers p).metrics (seriesID (s.heap r)) = none)
    (merges : List (Int × Ref))
    (hm : ∀ x ∈ merges, (s.heap x.2).identity = (s.heap r).identity) (now : Int)
    (acc : Accumulator) :
    ∃ s1 s2 s3 acc3 q delivered,
      Merge.Add s T r = some s1 ∧ addMany s1 merges = some s2 ∧
      (s2.groupers p).Metrics = (s1.groupers p).Metrics ∧
      (⟨T, r⟩ : wallTimeMetric) ∈ (s2.groupers p).Metrics ∧
      Merge.Push s2 now acc = some (s3, acc3) ∧ s3.a.nextGrouper = some q ∧
      acc3.metrics = acc.metrics ++ delivered ∧
      (now < T + s.a.HoldTime →
        r ∉ delivered ∧ (⟨T, r⟩ : wallTimeMetric) ∈ (s3.groupers q).Metrics) ∧
      (T + s.a.HoldTime ≤ now →
        r ∈ delivered ∧ (⟨T, r⟩ : wallTimeMetric) ∉ (s3.groupers q).Metrics) := by
  obtain ⟨s1, e1, a1, a2, a3, a4, _⟩ := Add_absent s p hp T r hnew
  have hg1 : s1.a.grouper = some p := by rw [a2]; exact hp
  have hr1 : Reachable s1 := Reachable.add T r hs e1
  have hin : (⟨T, r⟩ : wallTimeMetric) ∈ (s1.groupers p).ordered := by
    rw [a4]; simp
  obtain ⟨s2, e2, hr2, b1, b2, b3, _⟩ := addMany_merges p ⟨T, r⟩ merges s1 hr1 hg1 hin
    (by intro x hx; rw [a1]; exact hm x hx)
  have hg2 : s2.a.grouper = some p := by rw [b2]; exact hg1
  obtain ⟨hlt, hwf⟩ := hr2.inv.1 p hg2
  obtain ⟨s3, acc3, e3, c1, c2, c3, c4, c5, c6⟩ := Push_spec s2 p hg2 hlt hwf now acc
  have hin2 : (⟨T, r⟩ : wallTimeMetric) ∈ (s2.groupers p).ordered := by
    rw [b1]; exact hin
  obtain ⟨g1, g2⟩ := gate_entry s2.heap _ hwf.2 (now + negDuration s2.a.HoldTime) ⟨T, r⟩ hin2
  have hH : s2.a.HoldTime = s.a.HoldTime := by rw [b2, a2]
  refine ⟨s1, s2, s3, acc3, s2.nextAddr, _, e1, e2, by rw [b1], hin2, e3, by rw [c2],
    by rw [c6], ?_, ?_⟩
  · intro hlt1
    rw [c4]
    have := g1 (by rw [hH, negDuration_eq _ hN]; show now + -s.a.HoldTime < T; omega)
    exact ⟨this.2, this.1⟩
  · intro hge
    rw [c4]
    exact g2 (by rw [hH, negDuration_eq _ hN]; show T ≤ now + -s.a.HoldTime; omega)

/-- Witness of the amended C7: the run of the counterexample, the adds at the
clock readings 0 and 5 and the push at 7. -/
theorem quiet_period_from_creation_witness :
    Reachable (Merge.Init (exState 3)) ∧ (Merge.Init (exState 3)).a.grouper = some 0 ∧
      Negatable (Merge.Init (exState 3)).a.HoldTime ∧
      mapGet ((Merge.Init (exState 3)).groupers 0).metrics
        (seriesID ((Merge.Init (exState 3)).heap 0)) = none ∧
      (∀ x ∈ [((5 : Int), (3 : Ref))],
        ((Merge.Init (exState 3)).heap x.2).identity =
          ((Merge.Init (exState 3)).heap 0).identity) ∧
      ∃ s1 s2 s3 acc3 q delivered,
        Merge.Add (Merge.Init (exState 3)) 0 0 = some s1 ∧
        addMany s1 [((5 : Int), (3 : Ref))] = some s2 ∧
        (s2.groupers 0).Metrics = (s1.groupers 0).Metrics ∧
        (⟨0, 0⟩ : wallTimeMetric) ∈ (s2.groupers 0).Metrics ∧
        Merge.Push s2 7 ⟨0, [], []⟩ = some (s3, acc3) ∧ s3.a.nextGrouper = some q ∧
        acc3.metrics = (⟨0, [], []⟩ : Accumulator).metrics ++ delivered ∧
        ((7 : Int) < 0 + (Merge.Init (exState 3)).a.HoldTime →
          0 ∉ delivered ∧ (⟨0, 0⟩ : wallTimeMetric) ∈ (s3.groupers q).Metrics) ∧
        ((0 : Int) + (Merge.Init (exState 3)).a.HoldTime ≤ 7 →
          0 ∈ delivered ∧ (⟨0, 0⟩ : wallTimeMetric) ∉ (s3.groupers q).Metrics) :=
  ⟨Reachable.init (Reachable.zero _ _ _ _), rfl, by decide, rfl,
    by intro x hx; simp only [List.mem_singleton] at hx; subst hx; decide,
    quiet_period_from_creation (Merge.Init (exState 3))
      (Reachable.init (Reachable.zero _ _ _ _)) 0 rfl (by decide) 0 0 rfl [(5, 3)]
      (by intro x hx; simp only [List.mem_singleton] at hx; subst hx; decide) 7 ⟨0, [], []⟩⟩

/-- C8 as stated fails: with a hold time of 0 the record at address 0 is added at
clock reading 5 and pushed at clock reading 5, so its stamp equals the cutoff;
the push hands it to the accumulator and the staged grouper stays empty. -/
theorem cutoff_boundary_counterexample :
    (5 : Int) = 5 - (exState 0).a.HoldTime ∧
      ((Merge.Add (Merge.Init (exState 0)) 5 0).bind
        (fun s1 => Merge.Push s1 5 ⟨0, [], []⟩)).map
          (fun x => (x.2.metrics, x.1.a.nextGrouper, (x.1.groupers 1).Metrics)) =
        some ([0], some 1, []) := by
  refine ⟨by decide, ?_⟩
  set_option maxRecDepth 100000 in decide

/-- C8, amended (the boundary favours delivery). In `Push` on a reachable `Merge`
whose hold time `Push` can negate, with `cutoff = now - HoldTime`, a metric of
the current grouper is handed to the accumulator exactly when its stamp is not
after the cutoff and is staged exactly when its stamp is strictly after the
cutoff; a metric whose stamp equals the cutoff is handed over and not staged. -/
theorem cutoff_boundary (s : State) (hs : Reachable s) (p : Nat)
    (hp : s.a.grouper = some p) (hN : Negatable s.a.HoldTime) (now : Int) (acc : Accumulator)
    (w : wallTimeMetric) (hw : w ∈ (s.groupers p).Metrics) :
    ∃ s2 acc2 q delivered,
      Merge.Push s now acc = some (s2, acc2) ∧ s2.a.nextGrouper = some q ∧
      acc2.metrics = acc.metrics ++ delivered ∧
      (w.Metric ∈ delivered ↔ w.wallTime ≤ now - s.a.HoldTime) ∧
      (w ∈ (s2.groupers q).Metrics ↔ now - s.a.HoldTime < w.wallTime) ∧
      (w.wallTime = now - s.a.HoldTime →
        w.Metric ∈ delivered ∧ w ∉ (s2.groupers q).Metrics) := by
  obtain ⟨hlt, hwf⟩ := hs.inv.1 p hp
  obtain ⟨s2, acc2, e2, c1, c2, c3, c4, c5, c6⟩ := Push_spec s p hp hlt hwf now acc
  obtain ⟨g1, g2⟩ := gate_entry s.heap _ hwf.2 (now + negDuration s.a.HoldTime) w hw
  have hc := negDuration_eq _ hN
  refine ⟨s2, acc2, s.nextAddr, _, e2, by rw [c2], by rw [c6], ?_, ?_, ?_⟩
  · constructor
    · intro hd
      by_contra hc1
      exact (g1 (by omega)).2 hd
    · intro hc1
      exact (g2 (by omega)).1
  · rw [c4]
    constructor
    · intro hd
      by_contra hc1
      exact (g2 (by omega)).2 hd
    · intro hc1
      exact (g1 (by omega)).1
  · intro he
    rw [c4]
    exact g2 (by omega)

/-- Witness of the amended C8: the run of the counterexample. -/
theorem cutoff_boundary_witness :
    Reachable exAdded ∧ exAdded.a.grouper = some 0 ∧ Negatable exAdded.a.HoldTime ∧
      (⟨5, 0⟩ : wallTimeMetric) ∈ (exAdded.groupers 0).Metrics ∧
      ∃ s2 acc2 q delivered,
        Merge.Push exAdded 5 ⟨0, [], []⟩ = some (s2, acc2) ∧ s2.a.nextGrouper = some q ∧
        acc2.metrics = (⟨0, [], []⟩ : Accumulator).metrics ++ delivered ∧
        ((⟨5, 0⟩ : wallTimeMetric).Metric ∈ delivered ↔
          (⟨5, 0⟩ : wallTimeMetric).wallTime ≤ 5 - exAdded.a.HoldTime) ∧
        ((⟨5, 0⟩ : wallTimeMetric) ∈ (s2.groupers q).Metrics ↔
          5 - exAdded.a.HoldTime < (⟨5, 0⟩ : wallTimeMetric).wallTime) ∧
        ((⟨5, 0⟩ : wallTimeMetric).wallTime = 5 - exAdded.a.HoldTime →
          (⟨5, 0⟩ : wallTimeMetric).Metric ∈ delivered ∧
            (⟨5, 0⟩ : wallTimeMetric) ∉ (s2.groupers q).Metrics) :=
  ⟨Reachable.add 5 0 (Reachable.init (Reachable.zero exHeap (fun _ => NewSeriesGrouper) 0 0))
      (rfl : Merge.Add (Merge.Init (exState 0)) 5 0 = some exAdded),
    rfl, by decide, by decide,
    cutoff_boundary exAdded
      (Reachable.add 5 0 (Reachable.init (Reachable.zero exHeap (fun _ => NewSeriesGrouper) 0 0))
        (rfl : Merge.Add (Merge.Init (exState 0)) 5 0 = some exAdded))
      0 rfl (by decide) 5 ⟨0, [], []⟩ ⟨5, 0⟩ (by decide)⟩

theorem getField_addFields_exists (fs base : List Field) (k : String)
    (hk : k ∈ fieldKeys fs) :
    ∃ f ∈ fs, f.Key = k ∧ getField (addFields base fs) k = some f.Value := by
  induction fs generalizing base with
  | nil => simp [fieldKeys] at hk
  | cons g fs ih =>
    by_cases hin : k ∈ fieldKeys fs
    · obtain ⟨f, hf, e1, e2⟩ := ih (setField base g.Key g.Value) hin
      exact ⟨f, List.mem_cons_of_mem _ hf, e1, by simpa [addFields] using e2⟩
    · have hg : g.Key = k := by
        simp only [fieldKeys, List.map_cons, List.mem_cons] at hk hin
        rcases hk with h | h
        · exact h.symm
        · exact absurd h hin
      refine ⟨g, List.mem_cons_self _ _, hg, ?_⟩
      have h := getField_addFields_of_not_mem fs (setField base g.Key g.Value) k hin
      simp only [addFields, List.foldl_cons] at h ⊢
      rw [h, getField_setField, if_pos hg.symm]

theorem single_entry (s : State) (p : Nat) (hp : s.a.grouper = some p) (hlt : p < s.nextAddr)
    (he : s.groupers p = NewSeriesGrouper) (hH : s.a.HoldTime = 0) (T now : Int) (r : Ref)
    (hT : T ≤ now) (acc : Accumulator) :
    ∃ s1 s2 acc2, Merge.Add s T r = some s1 ∧ Merge.Push s1 now acc = some (s2, acc2) ∧
      acc2.metrics = acc.metrics ++ [r] ∧ s2.heap = s.heap ∧
      s2.a = { s.a with nextGrouper := some s.nextAddr } ∧ s2.nextAddr = s.nextAddr + 1 ∧
      s2.groupers s.nextAddr = NewSeriesGrouper := by
  have ha : mapGet (s.groupers p).metrics (seriesID (s.heap r)) = none := by rw [he]; rfl
  obtain ⟨s1, e1, a1, a2, a3, a4, _⟩ := Add_absent s p hp T r ha
  have hg1 : s1.a.grouper = some p := by rw [a2]; exact hp
  have hgr : s1.groupers p = grouperOf s1.heap [(⟨T, r⟩ : wallTimeMetric)] := by
    rw [a4, he, a1]; rfl
  have hwf : (s1.groupers p).WF s1.heap := by
    rw [hgr]; exact WF_grouperOf _ _ (by simp)
  obtain ⟨s2, acc2, e2, c1, c2, c3, c4, _, c6⟩ :=
    Push_spec s1 p hg1 (by rw [a3]; exact hlt) hwf now acc
  have hall : ∀ w ∈ (s1.groupers p).ordered, w.wallTime ≤ now + negDuration s1.a.HoldTime := by
    intro w hw
    rw [hgr] at hw
    simp only [grouperOf, List.mem_singleton] at hw
    subst hw
    rw [a2, hH, negDuration_zero]
    simpa using hT
  obtain ⟨hr, hh⟩ := ready_of_all _ _ hall
  refine ⟨s1, s2, acc2, e1, e2, ?_, by rw [c1, a1], by rw [c2, a2, a3], by rw [c3, a3], ?_⟩
  · rw [c6, hr, hgr]; rfl
  · rw [← a3, c4, hh]; rfl

/-- C4 (commit semantics). For a `Push` on a reachable `Merge` followed by `Reset`:
the current grouper is then the grouper that `Push` staged, whose `Metrics()` are
the metrics of the former current grouper stamped after the cutoff, in the same
order, and none of them is a record that `Push` handed over. And on a `Merge`
just initialised with `HoldTime = 0`: `Add(r1)`, `Push`, `Reset`, `Add(r2)`,
`Push`, at clock readings that do not go back, hand over `r1` and then `r2` as
two records, and no record on the heap is changed, so that `r2` carries its own
fields only (also when `r2` has the identity of `r1`). -/
theorem commit_semantics (s : State) (hs : Reachable s) (p : Nat)
    (hp : s.a.grouper = some p) (now : Int) (acc : Accumulator) (s0 : State)
    (acc0 : Accumulator) (r1 r2 : Ref) (T1 now1 T2 now2 : Int) (hH : s0.a.HoldTime = 0)
    (h1 : T1 ≤ now1) (h2 : T2 ≤ now2) :
    (∃ s2 acc2 q delivered,
      Merge.Push s now acc = some (s2, acc2) ∧ s2.a.nextGrouper = some q ∧
      acc2.metrics = acc.metrics ++ delivered ∧
      (Merge.Reset s2).a.grouper = some q ∧
      ((Merge.Reset s2).groupers q).Metrics = (s2.groupers q).Metrics ∧
      (s2.groupers q).Metrics = heldBack (now + negDuration s.a.HoldTime) (s.groupers p).Metrics ∧
      delivered = (ready (now + negDuration s.a.HoldTime) (s.groupers p).Metrics).map
        wallTimeMetric.Metric ∧
      ∀ w ∈ ((Merge.Reset s2).groupers q).Metrics, w.Metric ∉ delivered) ∧
    ∃ s5 acc5,
      ((Merge.Add (Merge.Init s0) T1 r1).bind (fun x => Merge.Push x now1 acc0)).bind
        (fun x => (Merge.Add (Merge.Reset x.1) T2 r2).bind
          (fun y => Merge.Push y now2 x.2)) = some (s5, acc5) ∧
      acc5.metrics = acc0.metrics ++ [r1, r2] ∧ s5.heap = s0.heap := by
  constructor
  · obtain ⟨hlt, hwf⟩ := hs.inv.1 p hp
    obtain ⟨s2, acc2, e2, _, c2, _, c4, _, c6⟩ := Push_spec s p hp hlt hwf now acc
    refine ⟨s2, acc2, s.nextAddr, _, e2, by rw [c2], by rw [c6]; rfl, ?_, rfl, ?_, rfl, ?_⟩
    · show s2.a.nextGrouper = some s.nextAddr
      rw [c2]
    · rw [c4]; rfl
    · intro w hw
      have hw1 : w ∈ heldBack (now + negDuration s.a.HoldTime) (s.groupers p).ordered := by
        have : (Merge.Reset s2).groupers s.nextAddr = s2.groupers s.nextAddr := rfl
        rw [this, c4] at hw
        exact hw
      have hwl : w ∈ (s.groupers p).ordered := (heldBack_sublist _ _).subset hw1
      have hc : now + negDuration s.a.HoldTime < w.wallTime := by
        simp [heldBack] at hw1
        omega
      exact ((gate_entry s.heap _ hwf.2 (now + negDuration s.a.HoldTime) w hwl).1 hc).2
  · obtain ⟨i1, i2, i3, i4, _⟩ := Init_spec s0
    obtain ⟨s1, s2, acc2, e1, e2, a1, a2, a3, a4, a5⟩ :=
      single_entry (Merge.Init s0) s0.nextAddr (by rw [i2]) (by rw [i3]; omega) i4
        (by rw [i2]; exact hH) T1 now1 r1 h1 acc0
    have hq : (Merge.Reset s2).a.grouper = some (s0.nextAddr + 1) := by
      show s2.a.nextGrouper = some (s0.nextAddr + 1)
      rw [a3, i3]
    obtain ⟨s4, s5, acc5, e4, e5, b1, b2, _, _, _⟩ :=
      single_entry (Merge.Reset s2) (s0.nextAddr + 1) hq
        (by show s0.nextAddr + 1 < s2.nextAddr; rw [a4, i3]; omega)
        (by show s2.groupers (s0.nextAddr + 1) = NewSeriesGrouper; rw [← i3]; exact a5)
        (by show s2.a.HoldTime = 0; rw [a3, i2]; exact hH) T2 now2 r2 h2 acc2
    refine ⟨s5, acc5, ?_, ?_, ?_⟩
    · rw [e1, Option.some_bind, e2, Option.some_bind]
      simp only [e4, Option.some_bind, e5]
    · rw [b1, a1]; simp
    · rw [b2]
      show s2.heap = s0.heap
      rw [a2, i1]

/-- Witness of C4: a push of the example state that holds one record, and the
run of `TestReset`. -/
theorem commit_semantics_witness :
    Reachable exAdded ∧ exAdded.a.grouper = some 0 ∧
      (exState 0).a.HoldTime = 0 ∧ (5 : Int) ≤ 6 ∧ (7 : Int) ≤ 8 ∧
      (∃ s2 acc2 q delivered,
        Merge.Push exAdded 9 ⟨0, [], []⟩ = some (s2, acc2) ∧
        s2.a.nextGrouper = some q ∧
        acc2.metrics = (⟨0, [], []⟩ : Accumulator).metrics ++ delivered ∧
        (Merge.Reset s2).a.grouper = some q ∧
        ((Merge.Reset s2).groupers q).Metrics = (s2.groupers q).Metrics ∧
        (s2.groupers q).Metrics =
          heldBack (9 + negDuration exAdded.a.HoldTime) (exAdded.groupers 0).Metrics ∧
        delivered = (ready (9 + negDuration exAdded.a.HoldTime)
          (exAdded.groupers 0).Metrics).map wallTimeMetric.Metric ∧
        ∀ w ∈ ((Merge.Reset s2).groupers q).Metrics, w.Metric ∉ delivered) ∧
      ∃ s5 acc5,
        ((Merge.Add (Merge.Init (exState 0)) 5 0).bind
          (fun x => Merge.Push x 6 ⟨0, [], []⟩)).bind
          (fun x => (Merge.Add (Merge.Reset x.1) 7 1).bind
            (fun y => Merge.Push y 8 x.2)) = some (s5, acc5) ∧
        acc5.metrics = (⟨0, [], []⟩ : Accumulator).metrics ++ [0, 1] ∧
        s5.heap = (exState 0).heap :=
  ⟨Reachable.add 5 0 (Reachable.init (Reachable.zero exHeap (fun _ => NewSeriesGrouper) 0 0))
      (rfl : Merge.Add (Merge.Init (exState 0)) 5 0 = some exAdded),
    rfl, rfl, by decide, by decide,
    commit_semantics exAdded
      (Reachable.add 5 0 (Reachable.init (Reachable.zero exHeap (fun _ => NewSeriesGrouper) 0 0))
        (rfl : Merge.Add (Merge.Init (exState 0)) 5 0 = some exAdded))
      0 rfl 9 ⟨0, [], []⟩ (exState 0) ⟨0, [], []⟩ 0 1 5 6 7 8 rfl (by decide) (by decide)⟩

/-- C6 as stated fails for a record of a different identity whose fingerprint
coincides: the records at addresses 4 and 5 differ in name and tags and have
the same fingerprint, the record at address 9 has the identity of the one at 4.
With a hold time of 10, the record 4 is added at clock reading 0, the records 5
and 9 at 12, and the push comes at 15, not earlier than `0 + 10` and earlier
than `12 + 10`. The record 5 is not held back: it is merged into the entry of
the record 4, which is handed over with the fields of all three, and nothing is
staged; after `Reset` the push at 30 hands nothing over. -/
theorem merge_keeps_hold_time_counterexample :
    (exHeapMore 5).identity ≠ (exHeapMore 4).identity ∧
      (exHeapMore 9).identity = (exHeapMore 4).identity ∧
      (0 : Int) + (exStateMore 10).a.HoldTime ≤ 15 ∧
      (15 : Int) < 12 + (exStateMore 10).a.HoldTime ∧
      ((((Merge.Add (Merge.Init (exStateMore 10)) 0 4).bind (fun x => Merge.Add x 12 5)).bind
          (fun x => Merge.Add x 12 9)).bind (fun x => Merge.Push x 15 ⟨0, [], []⟩)).map
        (fun x => (x.2.metrics, (x.1.groupers 1).Metrics, (x.1.heap 4).fields)) =
      some ([4], [], [⟨"x", .int 1⟩, ⟨"y", .int 2⟩, ⟨"z", .int 3⟩]) ∧
      (((((Merge.Add (Merge.Init (exStateMore 10)) 0 4).bind
          (fun x => Merge.Add x 12 5)).bind
          (fun x => Merge.Add x 12 9)).bind (fun x => Merge.Push x 15 ⟨0, [], []⟩)).bind
          (fun x => Merge.Push (Merge.Reset x.1) 30 x.2)).map
        (fun y => (y.2.metrics, (y.1.groupers 2).Metrics)) =
      some ([4], []) := by
  refine ⟨by decide, by decide, by decide, by decide, ?_, ?_⟩
  · set_option maxRecDepth 100000 in decide
  · set_option maxRecDepth 100000 in decide

/-- C6, amended (merging does not restart the hold time; the record held back
has a fingerprint of its own). On a reachable `Merge` with a 64-bit `HoldTime`,
let `Add(r1)` at `T1` create an entry, `Add(r2)` at `T2` create another, the
fingerprint of `r2` being new to the grouper and different from that of `r1`,
and `Add(r3)` at any `T3`, `r3` of the identity of `r1`, merge into the first. A
`Push` at `now`, not earlier than the add of `r2`, with
`T1 + HoldTime ≤ now < T2 + HoldTime` hands over `r1`, which keeps its identity
and holds the fields of `r1` and of `r3`, does not hand over `r2`, which is
unchanged, and stages the entry of `r2`. After `Reset`, a `Push` at `now2`
hands over `r2` when `now2 ≥ T2 + HoldTime` and not before, and never `r1`. -/
theorem merge_keeps_hold_time (s : State) (hs : Reachable s) (p : Nat)
    (hp : s.a.grouper = some p) (h64 : s.a.HoldTime < 9223372036854775808) (r1 r2 r3 : Ref)
    (T1 T2 T3 now : Int) (acc : Accumulator)
    (hnew1 : mapGet (s.groupers p).metrics (seriesID (s.heap r1)) = none)
    (hnew2 : mapGet (s.groupers p).metrics (seriesID (s.heap r2)) = none)
    (hne : seriesID (s.heap r2) ≠ seriesID (s.heap r1))
    (hid : (s.heap r3).identity = (s.heap r1).identity)
    (hready : T1 + s.a.HoldTime ≤ now) (hheld : now < T2 + s.a.HoldTime)
    (hclock : T2 ≤ now) :
    ∃ s3 s4 acc4 q d1,
      ((Merge.Add s T1 r1).bind (fun x => Merge.Add x T2 r2)).bind
        (fun x => Merge.Add x T3 r3) = some s3 ∧
      Merge.Push s3 now acc = some (s4, acc4) ∧ s4.a.nextGrouper = some q ∧
      acc4.metrics = acc.metrics ++ d1 ∧ r1 ∈ d1 ∧ r2 ∉ d1 ∧
      (⟨T2, r2⟩ : wallTimeMetric) ∈ (s4.groupers q).Metrics ∧
      (⟨T1, r1⟩ : wallTimeMetric) ∉ (s4.groupers q).Metrics ∧
      (s4.heap r1).identity = (s.heap r1).identity ∧
      (∀ k, k ∈ fieldKeys (s4.heap r1).fields ↔
        k ∈ fieldKeys (s.heap r1).fields ∨ k ∈ fieldKeys (s.heap r3).fields) ∧
      (∀ k, k ∈ fieldKeys (s.heap r3).fields →
        ∃ f ∈ (s.heap r3).fields, f.Key = k ∧ getField (s4.heap r1).fields k = some f.Value) ∧
      (∀ k, k ∉ fieldKeys (s.heap r3).fields →
        getField (s4.heap r1).fields k = getField (s.heap r1).fields k) ∧
      s4.heap r2 = s.heap r2 ∧
      ∀ (now2 : Int) (acc1 : Accumulator), ∃ s5 acc5 d2,
        Merge.Push (Merge.Reset s4) now2 acc1 = some (s5, acc5) ∧
        acc5.metrics = acc1.metrics ++ d2 ∧ r1 ∉ d2 ∧
        (now2 < T2 + s.a.HoldTime → r2 ∉ d2) ∧ (T2 + s.a.HoldTime ≤ now2 → r2 ∈ d2) := by
  -- the hold time is positive, so that `Push` negates it without wrapping
  have hN : Negatable s.a.HoldTime := ⟨by omega, h64⟩
  obtain ⟨_, hwf0⟩ := hs.inv.1 p hp
  -- the first add creates the entry of r1
  obtain ⟨sA, eA, a1, a2, a3, a4, _⟩ := Add_absent s p hp T1 r1 hnew1
  have hgA : sA.a.grouper = some p := by rw [a2]; exact hp
  have hrA : Reachable sA := Reachable.add T1 r1 hs eA
  obtain ⟨_, hwfA⟩ := hrA.inv.1 p hgA
  -- the second add creates the entry of r2
  have hn2 : seriesID (s.heap r2) ∉ (s.groupers p).ordered.map (fingerprint s.heap) := by
    rw [hwf0.1] at hnew2
    exact (mapGet_map_none _ _ _).mp hnew2
  have hnewA : mapGet (sA.groupers p).metrics (seriesID (sA.heap r2)) = none := by
    rw [hwfA.1, a1]
    apply (mapGet_map_none _ _ _).mpr
    rw [a4]
    simp only [List.map_append, List.map_cons, List.map_nil, List.mem_append,
      List.mem_singleton, not_or]
    exact ⟨hn2, fun e => hne e⟩
  obtain ⟨sB, eB, b1, b2, b3, b4, _⟩ := Add_absent sA p hgA T2 r2 hnewA
  have hgB : sB.a.grouper = some p := by rw [b2]; exact hgA
  have hrB : Reachable sB := Reachable.add T2 r2 hrA eB
  obtain ⟨_, hwfB⟩ := hrB.inv.1 p hgB
  have hordB : (sB.groupers p).ordered =
      (s.groupers p).ordered ++ [(⟨T1, r1⟩ : wallTimeMetric)] ++ [⟨T2, r2⟩] := by
    rw [b4, a4]
  have hheapB : sB.heap = s.heap := by rw [b1, a1]
  -- the third add merges into the entry of r1
  have hgetB : mapGet (sB.groupers p).metrics (seriesID (sB.heap r3)) =
      some (⟨T1, r1⟩ : wallTimeMetric) := by
    have hmem : (⟨T1, r1⟩ : wallTimeMetric) ∈ (sB.groupers p).ordered := by
      rw [hordB]; simp
    have h := mapGet_map_of_mem (fingerprint sB.heap) _ _ hmem hwfB.2
    rw [hwfB.1, hheapB, seriesID_congr _ _ hid]
    rw [hheapB] at h
    exact h
  obtain ⟨sC, eC, c1, c2, c3, c4⟩ := Add_present sB p hgB T3 r3 ⟨T1, r1⟩ hgetB
  have hgC : sC.a.grouper = some p := by rw [c2]; exact hgB
  have hrC : Reachable sC := Reachable.add T3 r3 hrB eC
  obtain ⟨hltC, hwfC⟩ := hrC.inv.1 p hgC
  have hHC : sC.a.HoldTime = s.a.HoldTime := by rw [c2, b2, a2]
  have hordC : (sC.groupers p).ordered =
      (s.groupers p).ordered ++ [(⟨T1, r1⟩ : wallTimeMetric)] ++ [⟨T2, r2⟩] := by
    rw [c4, hordB]
  have hm1 : (⟨T1, r1⟩ : wallTimeMetric) ∈ (sC.groupers p).ordered := by rw [hordC]; simp
  have hm2 : (⟨T2, r2⟩ : wallTimeMetric) ∈ (sC.groupers p).ordered := by rw [hordC]; simp
  have hheapC : ∀ r, sC.heap r =
      if r = r1 then { s.heap r1 with fields := addFields (s.heap r1).fields (s.heap r3).fields }
      else s.heap r := by
    intro r
    rw [c1, hheapB, mergeFields_apply]
  have hr12 : r2 ≠ r1 := fun e => hne (by rw [e])
  -- the push
  obtain ⟨s4, acc4, e4, d1, d2, d3, d4, d5, d6⟩ := Push_spec sC p hgC hltC hwfC now acc
  obtain ⟨_, g1⟩ := gate_entry sC.heap _ hwfC.2 (now + negDuration sC.a.HoldTime) ⟨T1, r1⟩ hm1
  obtain ⟨g2, _⟩ := gate_entry sC.heap _ hwfC.2 (now + negDuration sC.a.HoldTime) ⟨T2, r2⟩ hm2
  have k1 := g1 (by rw [hHC, negDuration_eq _ hN]; show T1 ≤ now + -s.a.HoldTime; omega)
  have k2 := g2 (by rw [hHC, negDuration_eq _ hN]; show now + -s.a.HoldTime < T2; omega)
  have hh1 : s4.heap r1 =
      { s.heap r1 with fields := addFields (s.heap r1).fields (s.heap r3).fields } := by
    rw [d1, hheapC, if_pos rfl]
  refine ⟨sC, s4, acc4, sC.nextAddr, _, ?_, e4, by rw [d2], by rw [d6], k1.1, k2.2, ?_, ?_, ?_,
    ?_, ?_, ?_, ?_, ?_⟩
  · rw [eA, Option.some_bind, eB, Option.some_bind, eC]
  · rw [d4]; exact k2.1
  · rw [d4]; exact k1.2
  · rw [hh1]; rfl
  · intro k
    rw [hh1]
    exact mem_fieldKeys_addFields _ _ _
  · intro k hk
    rw [hh1]
    exact getField_addFields_exists _ _ k hk
  · intro k hk
    rw [hh1]
    exact getField_addFields_of_not_mem _ _ k hk
  · rw [d1, hheapC, if_neg hr12]
  · intro now2 acc1
    have hr4 : Reachable (Merge.Reset s4) := Reachable.reset (Reachable.push now acc acc4 hrC e4)
    have hg4 : (Merge.Reset s4).a.grouper = some sC.nextAddr := by
      show s4.a.nextGrouper = some sC.nextAddr
      rw [d2]
    obtain ⟨hlt4, hwf4⟩ := hr4.inv.1 _ hg4
    obtain ⟨s5, acc5, e5, _, _, _, _, _, f6⟩ := Push_spec _ _ hg4 hlt4 hwf4 now2 acc1
    have hst : ((Merge.Reset s4).groupers sC.nextAddr).ordered =
        heldBack (now + negDuration sC.a.HoldTime) (sC.groupers p).ordered := by
      show (s4.groupers sC.nextAddr).ordered = _
      rw [d4]; rfl
    have hH4 : (Merge.Reset s4).a.HoldTime = s.a.HoldTime := by
      show s4.a.HoldTime = s.a.HoldTime
      rw [d2]; exact hHC
    have hm2s : (⟨T2, r2⟩ : wallTimeMetric) ∈
        ((Merge.Reset s4).groupers sC.nextAddr).ordered := by
      rw [hst]; exact k2.1
    obtain ⟨j1, j2⟩ := gate_entry (Merge.Reset s4).heap _ hwf4.2
      (now2 + negDuration (Merge.Reset s4).a.HoldTime) ⟨T2, r2⟩ hm2s
    refine ⟨s5, acc5, _, e5, by rw [f6], ?_, ?_, ?_⟩
    · intro hmem
      obtain ⟨w, hw, ew⟩ := List.mem_map.mp hmem
      have hw1 : w ∈ heldBack (now + negDuration sC.a.HoldTime) (sC.groupers p).ordered := by
        rw [← hst]; exact (ready_sublist _ _).subset hw
      have hw2 : w ∈ (sC.groupers p).ordered := (heldBack_sublist _ _).subset hw1
      have := entry_unique sC.heap _ hwfC.2 ⟨T1, r1⟩ w hm1 hw2 ew
      subst this
      exact k1.2 hw1
    · intro hlt2
      exact (j1 (by rw [hH4, negDuration_eq _ hN]; show now2 + -s.a.HoldTime < T2; omega)).2
    · intro hge2
      exact (j2 (by rw [hH4, negDuration_eq _ hN]; show T2 ≤ now2 + -s.a.HoldTime; omega)).1

/-- Witness of the amended C6: the run of `TestHoldTime` with a hold time of 10,
the first record added at clock reading 0, the two others at 12, and the push at 15. -/
theorem merge_keeps_hold_time_witness :
    Reachable (Merge.Init (exState 10)) ∧ (Merge.Init (exState 10)).a.grouper = some 0 ∧
      (Merge.Init (exState 10)).a.HoldTime < 9223372036854775808 ∧
      mapGet ((Merge.Init (exState 10)).groupers 0).metrics
        (seriesID ((Merge.Init (exState 10)).heap 0)) = none ∧
      mapGet ((Merge.Init (exState 10)).groupers 0).metrics
        (seriesID ((Merge.Init (exState 10)).heap 2)) = none ∧
      seriesID ((Merge.Init (exState 10)).heap 2) ≠
        seriesID ((Merge.Init (exState 10)).heap 0) ∧
      ((Merge.Init (exState 10)).heap 3).identity =
        ((Merge.Init (exState 10)).heap 0).identity ∧
      (0 : Int) + (Merge.Init (exState 10)).a.HoldTime ≤ 15 ∧
      (15 : Int) < 12 + (Merge.Init (exState 10)).a.HoldTime ∧ (12 : Int) ≤ 15 ∧
      ∃ s3 s4 acc4 q d1,
        ((Merge.Add (Merge.Init (exState 10)) 0 0).bind (fun x => Merge.Add x 12 2)).bind
          (fun x => Merge.Add x 12 3) = some s3 ∧
        Merge.Push s3 15 ⟨0, [], []⟩ = some (s4, acc4) ∧ s4.a.nextGrouper = some q ∧
        acc4.metrics = (⟨0, [], []⟩ : Accumulator).metrics ++ d1 ∧ 0 ∈ d1 ∧ 2 ∉ d1 ∧
        (⟨12, 2⟩ : wallTimeMetric) ∈ (s4.groupers q).Metrics ∧
        (⟨0, 0⟩ : wallTimeMetric) ∉ (s4.groupers q).Metrics ∧
        (s4.heap 0).identity = ((Merge.Init (exState 10)).heap 0).identity ∧
        (∀ k, k ∈ fieldKeys (s4.heap 0).fields ↔
          k ∈ fieldKeys ((Merge.Init (exState 10)).heap 0).fields ∨
            k ∈ fieldKeys ((Merge.Init (exState 10)).heap 3).fields) ∧
        (∀ k, k ∈ fieldKeys ((Merge.Init (exState 10)).heap 3).fields →
          ∃ f ∈ ((Merge.Init (exState 10)).heap 3).fields,
            f.Key = k ∧ getField (s4.heap 0).fields k = some f.Value) ∧
        (∀ k, k ∉ fieldKeys ((Merge.Init (exState 10)).heap 3).fields →
          getField (s4.heap 0).fields k =
            getField ((Merge.Init (exState 10)).heap 0).fields k) ∧
        s4.heap 2 = (Merge.Init (exState 10)).heap 2 ∧
        ∀ (now2 : Int) (acc1 : Accumulator), ∃ s5 acc5 d2,
          Merge.Push (Merge.Reset s4) now2 acc1 = some (s5, acc5) ∧
          acc5.metrics = acc1.metrics ++ d2 ∧ 0 ∉ d2 ∧
          (now2 < 12 + (Merge.Init (exState 10)).a.HoldTime → 2 ∉ d2) ∧
          (12 + (Merge.Init (exState 10)).a.HoldTime ≤ now2 → 2 ∈ d2) :=
  ⟨Reachable.init (Reachable.zero _ _ _ _), rfl, by decide, rfl, rfl,
    by set_option maxRecDepth 100000 in decide, by decide, by decide, by decide, by decide,
    merge_keeps_hold_time (Merge.Init (exState 10)) (Reachable.init (Reachable.zero _ _ _ _))
      0 rfl (by decide) 0 2 3 0 12 12 15 ⟨0, [], []⟩ rfl rfl
      (by set_option maxRecDepth 100000 in decide) (by decide) (by decide) (by decide)
      (by decide)⟩

/-- C9 (flush idempotence). On a reachable, initialised `Merge`, two `Push` calls
at the same clock reading with no `Add` or `Reset` in between hand over the same
sequence of records, and the staged grouper after the second call equals the
staged grouper after the first; the heap and the current grouper are the same
after both. -/
theorem flush_idempotence (s : State) (hs : Reachable s) (p : Nat)
    (hp : s.a.grouper = some p) (now : Int) (acc acc1 : Accumulator) :
    ∃ s2 acc2 s3 acc3 q2 q3 delivered,
      Merge.Push s now acc = some (s2, acc2) ∧ Merge.Push s2 now acc1 = some (s3, acc3) ∧
      acc2.metrics = acc.metrics ++ delivered ∧ acc3.metrics = acc1.metrics ++ delivered ∧
      s2.a.nextGrouper = some q2 ∧ s3.a.nextGrouper = some q3 ∧
      s3.groupers q3 = s2.groupers q2 ∧ s3.heap = s2.heap ∧
      s3.a.grouper = s2.a.grouper ∧ s3.groupers p = s2.groupers p := by
  obtain ⟨hlt, hwf⟩ := hs.inv.1 p hp
  obtain ⟨s2, acc2, e2, c1, c2, c3, c4, c5, c6⟩ := Push_spec s p hp hlt hwf now acc
  have hg2 : s2.a.grouper = some p := by rw [c2]; exact hp
  have hp2 : s2.groupers p = s.groupers p := c5 p (Nat.ne_of_lt hlt)
  have hwf2 : (s2.groupers p).WF s2.heap := by rw [hp2, c1]; exact hwf
  obtain ⟨s3, acc3, e3, d1, d2, d3, d4, d5, d6⟩ :=
    Push_spec s2 p hg2 (by rw [c3]; omega) hwf2 now acc1
  have hH : s2.a.HoldTime = s.a.HoldTime := by rw [c2]
  refine ⟨s2, acc2, s3, acc3, s.nextAddr, s2.nextAddr, _, e2, e3, by rw [c6], ?_, by rw [c2],
    by rw [d2], ?_, d1, by rw [d2], ?_⟩
  · rw [d6, hp2, hH]
  · rw [d4, c4, hp2, hH, c1]
  · exact d5 p (by rw [c3]; omega)

/-- Witness of C9: two pushes at clock reading 7 of the example state that holds
one record. -/
theorem flush_idempotence_witness :
    Reachable exAdded ∧ exAdded.a.grouper = some 0 ∧
      ∃ s2 acc2 s3 acc3 q2 q3 delivered,
        Merge.Push exAdded 7 ⟨0, [], []⟩ = some (s2, acc2) ∧
        Merge.Push s2 7 ⟨1, [0], [exTime 0]⟩ = some (s3, acc3) ∧
        acc2.metrics = (⟨0, [], []⟩ : Accumulator).metrics ++ delivered ∧
        acc3.metrics = (⟨1, [0], [exTime 0]⟩ : Accumulator).metrics ++ delivered ∧
        s2.a.nextGrouper = some q2 ∧ s3.a.nextGrouper = some q3 ∧
        s3.groupers q3 = s2.groupers q2 ∧ s3.heap = s2.heap ∧
        s3.a.grouper = s2.a.grouper ∧ s3.groupers 0 = s2.groupers 0 :=
  ⟨Reachable.add 5 0 (Reachable.init (Reachable.zero exHeap (fun _ => NewSeriesGrouper) 0 0))
      (rfl : Merge.Add (Merge.Init (exState 0)) 5 0 = some exAdded),
    rfl,
    flush_idempotence exAdded
      (Reachable.add 5 0 (Reachable.init (Reachable.zero exHeap (fun _ => NewSeriesGrouper) 0 0))
        (rfl : Merge.Add (Merge.Init (exState 0)) 5 0 = some exAdded))
      0 rfl 7 ⟨0, [], []⟩ ⟨1, [0], [exTime 0]⟩⟩

theorem addMany_total (adds : List (Int × Ref)) :
    ∀ (s : State) (p : Nat), s.a.grouper = some p →
      ∃ s1, addMany s adds = some s1 ∧ s1.a = s.a := by
  induction adds with
  | nil =>
    intro s p _
    exact ⟨s, rfl, rfl⟩
  | cons x rest ih =>
    intro s p hp
    obtain ⟨now, m⟩ := x
    obtain ⟨s1, e1, a1⟩ := ih _ p
      (show ({ s.setGrouper p
                (SeriesGrouper.AddMetric s.heap (s.groupers p) ⟨now, m⟩).2 with
               heap := (SeriesGrouper.AddMetric s.heap (s.groupers p) ⟨now, m⟩).1 } :
              State).a.grouper = some p from hp)
    refine ⟨s1, ?_, a1⟩
    simp only [addMany, Add_eq s p hp now m, Option.some_bind, e1]

/-- C10, the code at the failing input: on the zero value of `Merge`, after
`Init` and any number of `Add` calls, which all succeed, a `Reset` without a
prior `Push` puts the nil pointer of `nextGrouper` into `grouper`, and the next
`Add` and the next `Push` dereference it. -/
theorem reset_before_push_panics (heap : Heap) (groupers : Nat → SeriesGrouper wallTimeMetric)
    (nextAddr : Nat) (d : Int) (adds : List (Int × Ref)) (now : Int) (m : Ref)
    (acc : Accumulator) :
    ∃ s1,
      addMany (Merge.Init
        { heap := heap, groupers := groupers, nextAddr := nextAddr,
          a := { HoldTime := d, grouper := none, nextGrouper := none } }) adds = some s1 ∧
      (Merge.Reset s1).a.grouper = none ∧ Merge.Add (Merge.Reset s1) now m = none ∧
      Merge.Push (Merge.Reset s1) now acc = none := by
  obtain ⟨s1, e1, a1⟩ := addMany_total adds (Merge.Init
    { heap := heap, groupers := groupers, nextAddr := nextAddr,
      a := { HoldTime := d, grouper := none, nextGrouper := none } }) nextAddr rfl
  have hn : (Merge.Reset s1).a.grouper = none := by
    show s1.a.nextGrouper = none
    rw [a1]; rfl
  exact ⟨s1, e1, hn, Add_none _ hn _ _, Push_none _ hn _ _⟩

/-! ## The claims on `Push` as a read of the current grouper -/

theorem foldl_AddMetric (h : Heap) (delivered : List Ref) (acc : Accumulator) :
    delivered.foldl (fun a r => a.AddMetric h r) acc =
      { precision := acc.precision, metrics := acc.metrics ++ delivered,
        times := acc.times ++ delivered.map (fun r => (h r).tm.Round acc.precision) } := by
  induction delivered generalizing acc with
  | nil => simp
  | cons r rest ih =>
    rw [List.foldl_cons, ih]
    simp [Accumulator.AddMetric]

theorem Round_one (t : Time) (h : t.nsec < 1000000000) : t.Round 1 = t := by
  have e1 : (t.sec * 1000000000 + (t.nsec : Int)) / 1000000000 = t.sec := by omega
  have e2 : ((t.sec * 1000000000 + (t.nsec : Int)) % 1000000000).toNat = t.nsec := by omega
  simp [Time.Round, e1, e2]

theorem metric_nodup (h : Heap) (l : List wallTimeMetric)
    (hnd : (l.map (fingerprint h)).Nodup) : (l.map wallTimeMetric.Metric).Nodup := by
  have e : l.map (fingerprint h) =
      (l.map wallTimeMetric.Metric).map (fun r => seriesID (h r)) := by
    simp [List.map_map, Function.comp_def, fingerprint_wtm]
  rw [e] at hnd
  exact List.Nodup.of_map _ hnd

/-- C11 (flush is read-only on the current generation). On a reachable,
initialised `Merge`, with any hold time and at any clock reading, `Push` returns
and leaves the `grouper` pointer, the current grouper (map and slice, hence the
`Metrics()` sequence and every wall-clock stamp in it) and the whole heap (hence
name, tags, timestamp and fields of every record) as they were. -/
theorem flush_read_only (s : State) (hs : Reachable s) (p : Nat)
    (hp : s.a.grouper = some p) (now : Int) (acc : Accumulator) :
    ∃ s2 acc2,
      Merge.Push s now acc = some (s2, acc2) ∧ s2.a.grouper = some p ∧
      s2.a.HoldTime = s.a.HoldTime ∧ s2.groupers p = s.groupers p ∧
      (s2.groupers p).Metrics = (s.groupers p).Metrics ∧ s2.heap = s.heap ∧
      ∀ w ∈ (s.groupers p).Metrics,
        w ∈ (s2.groupers p).Metrics ∧ s2.heap w.Metric = s.heap w.Metric := by
  obtain ⟨hlt, hwf⟩ := hs.inv.1 p hp
  obtain ⟨s2, acc2, e2, c1, c2, _, _, c5, _⟩ := Push_spec s p hp hlt hwf now acc
  have hgp : s2.groupers p = s.groupers p := c5 p (Nat.ne_of_lt hlt)
  refine ⟨s2, acc2, e2, by rw [c2]; exact hp, by rw [c2], hgp, by rw [hgp], c1, ?_⟩
  intro w hw
  exact ⟨by rw [hgp]; exact hw, by rw [c1]⟩

/-- Witness of C11: a push of the example state that holds one record. -/
theorem flush_read_only_witness :
    Reachable exAdded ∧ exAdded.a.grouper = some 0 ∧
      ∃ s2 acc2,
        Merge.Push exAdded 9 ⟨0, [], []⟩ = some (s2, acc2) ∧ s2.a.grouper = some 0 ∧
        s2.a.HoldTime = exAdded.a.HoldTime ∧ s2.groupers 0 = exAdded.groupers 0 ∧
        (s2.groupers 0).Metrics = (exAdded.groupers 0).Metrics ∧ s2.heap = exAdded.heap ∧
        ∀ w ∈ (exAdded.groupers 0).Metrics,
          w ∈ (s2.groupers 0).Metrics ∧ s2.heap w.Metric = exAdded.heap w.Metric :=
  ⟨Reachable.add 5 0 (Reachable.init (Reachable.zero exHeap (fun _ => NewSeriesGrouper) 0 0))
      (rfl : Merge.Add (Merge.Init (exState 0)) 5 0 = some exAdded),
    rfl,
    flush_read_only exAdded
      (Reachable.add 5 0 (Reachable.init (Reachable.zero exHeap (fun _ => NewSeriesGrouper) 0 0))
        (rfl : Merge.Add (Merge.Init (exState 0)) 5 0 = some exAdded))
      0 rfl 9 ⟨0, [], []⟩⟩

/-- C12 (nanosecond precision at flush). On a reachable, initialised `Merge`,
`Push` sets the precision of the accumulator to one nanosecond, whatever it was,
before it hands over any record: the accumulator after `Push` is the accumulator
after `SetPrecision(1ns)` followed by the `AddMetric` calls of the delivered
records, in this order. Hence the timestamp the accumulator keeps for every
delivered record is the record's timestamp rounded to one nanosecond and not to
the earlier precision, which is the record's own timestamp (its nanoseconds being
below one second, as in every `time.Time`). `Push` leaves the timestamp of every
delivered record as it was. -/
theorem nanosecond_precision (s : State) (hs : Reachable s) (p : Nat)
    (hp : s.a.grouper = some p) (now : Int) (acc : Accumulator) :
    ∃ s2 acc2 delivered,
      Merge.Push s now acc = some (s2, acc2) ∧
      acc2 = delivered.foldl (fun a r => a.AddMetric s.heap r) (acc.SetPrecision 1) ∧
      acc2.precision = 1 ∧ acc2.metrics = acc.metrics ++ delivered ∧
      acc2.times = acc.times ++ delivered.map (fun r => (s.heap r).tm.Round 1) ∧
      ((∀ r ∈ delivered, (s.heap r).tm.nsec < 1000000000) →
        acc2.times = acc.times ++ delivered.map (fun r => (s.heap r).tm)) ∧
      ∀ r ∈ delivered, (s2.heap r).tm = (s.heap r).tm := by
  obtain ⟨hlt, hwf⟩ := hs.inv.1 p hp
  obtain ⟨s2, acc2, e2, c1, _, _, _, _, c6⟩ := Push_spec s p hp hlt hwf now acc
  refine ⟨s2, acc2,
    (ready (now + negDuration s.a.HoldTime) (s.groupers p).ordered).map wallTimeMetric.Metric,
    e2, ?_, by rw [c6], by rw [c6], ?_, ?_, ?_⟩
  · rw [c6, foldl_AddMetric]
    simp [Accumulator.SetPrecision, List.map_map, Function.comp_def]
  · rw [c6]
    simp [List.map_map, Function.comp_def]
  · intro hns
    rw [c6]
    simp only [List.map_map, Function.comp_def]
    congr 1
    apply List.map_congr_left
    intro w hw
    exact Round_one _ (hns w.Metric (List.mem_map_of_mem _ hw))
  · intro r _
    rw [c1]

theorem exNs_reachable : Reachable exNs := by
  have h1 : Reachable exNs1 :=
    Reachable.add 5 2 (Reachable.init (Reachable.zero exHeapNs (fun _ => NewSeriesGrouper) 0 0))
      (rfl : Merge.Add (Merge.Init exStateNs) 5 2 = some exNs1)
  have e := Add_eq exNs1 0 rfl 6 6
  have e2 : Merge.Add exNs1 6 6 = some exNs := by
    rw [e]
    unfold exNs
    rw [e]
  exact Reachable.add 6 6 h1 e2

theorem exNs_grouper : exNs.a.grouper = some 0 := by
  unfold exNs
  rw [Add_eq exNs1 0 rfl 6 6]
  rfl

/-- Witness of C12: the run of `TestNanosecondPrecision`, the accumulator set to
one second before the push. The two records at `time.Unix(0, 1)` are delivered
as one record, kept at `time.Unix(0, 1)`; at the precision of one second the
accumulator would have kept `time.Unix(0, 0)`. -/
theorem nanosecond_precision_witness :
    Reachable exNs ∧ exNs.a.grouper = some 0 ∧
      (Merge.Push exNs 7 ⟨1000000000, [], []⟩).map
          (fun x => (x.2, x.2.metrics.map (fun r => (x.1.heap r).tm))) =
        some (⟨1, [2], [exTime 1]⟩, [exTime 1]) ∧
      (exTime 1).Round 1000000000 = exTime 0 ∧
      ∃ s2 acc2 delivered,
        Merge.Push exNs 7 ⟨1000000000, [], []⟩ = some (s2, acc2) ∧
        acc2 = delivered.foldl (fun a r => a.AddMetric exNs.heap r)
          ((⟨1000000000, [], []⟩ : Accumulator).SetPrecision 1) ∧
        acc2.precision = 1 ∧
        acc2.metrics = (⟨1000000000, [], []⟩ : Accumulator).metrics ++ delivered ∧
        acc2.times = (⟨1000000000, [], []⟩ : Accumulator).times ++
          delivered.map (fun r => (exNs.heap r).tm.Round 1) ∧
        ((∀ r ∈ delivered, (exNs.heap r).tm.nsec < 1000000000) →
          acc2.times = (⟨1000000000, [], []⟩ : Accumulator).times ++
            delivered.map (fun r => (exNs.heap r).tm)) ∧
        ∀ r ∈ delivered, (s2.heap r).tm = (exNs.heap r).tm :=
  ⟨exNs_reachable, exNs_grouper, by set_option maxRecDepth 100000 in decide, by decide,
    nanosecond_precision exNs exNs_reachable 0 exNs_grouper 7 ⟨1000000000, [], []⟩⟩

/-- C16 (flush partitions the current generation). On a reachable, initialised
`Merge`, `Push` splits the `Metrics()` of the current grouper, whose metrics and
whose records are pairwise distinct, into the metrics whose records it hands to
the accumulator and the `Metrics()` of the new staged grouper: both are
subsequences of the current `Metrics()`, so each keeps the order of first
insertion, together they are a rearrangement of it, and every metric is in
exactly one of them. The staged grouper holds one map entry for each staged
metric and the heap is unchanged: nothing is merged while staging. -/
theorem flush_partitions (s : State) (hs : Reachable s) (p : Nat)
    (hp : s.a.grouper = some p) (now : Int) (acc : Accumulator) :
    ∃ s2 acc2 q delivered,
      Merge.Push s now acc = some (s2, acc2) ∧ s2.a.nextGrouper = some q ∧
      acc2.metrics = acc.metrics ++ delivered.map wallTimeMetric.Metric ∧
      delivered.Sublist (s.groupers p).Metrics ∧
      (s2.groupers q).Metrics.Sublist (s.groupers p).Metrics ∧
      (delivered ++ (s2.groupers q).Metrics).Perm (s.groupers p).Metrics ∧
      (s.groupers p).Metrics.Nodup ∧
      ((s.groupers p).Metrics.map wallTimeMetric.Metric).Nodup ∧
      (∀ w ∈ (s.groupers p).Metrics,
        (w ∈ delivered ∧ w ∉ (s2.groupers q).Metrics) ∨
          (w ∉ delivered ∧ w ∈ (s2.groupers q).Metrics)) ∧
      (s2.groupers q).metrics.length = (s2.groupers q).Metrics.length ∧
      s2.heap = s.heap := by
  obtain ⟨hlt, hwf⟩ := hs.inv.1 p hp
  obtain ⟨s2, acc2, e2, c1, c2, _, c4, _, c6⟩ := Push_spec s p hp hlt hwf now acc
  refine ⟨s2, acc2, s.nextAddr, ready (now + negDuration s.a.HoldTime) (s.groupers p).ordered,
    e2, by rw [c2], by rw [c6], ready_sublist _ _, ?_, ?_, List.Nodup.of_map _ hwf.2,
    metric_nodup _ _ hwf.2, ?_, ?_, c1⟩
  · rw [c4]; exact heldBack_sublist _ _
  · rw [c4]
    exact (List.perm_append_comm).trans (List.filter_append_perm _ _)
  · intro w hw
    rw [c4]
    by_cases hc : now + negDuration s.a.HoldTime < w.wallTime
    · right
      constructor
      · simp [ready, hc]
      · simp [grouperOf, SeriesGrouper.Metrics, heldBack, hc]
        exact hw
    · left
      constructor
      · simp [ready, hc]
        exact hw
      · simp [grouperOf, SeriesGrouper.Metrics, heldBack, hc]
  · rw [c4]
    simp [grouperOf, SeriesGrouper.Metrics]

/-- Witness of C16: a push of the example state that holds one record. -/
theorem flush_partitions_witness :
    Reachable exAdded ∧ exAdded.a.grouper = some 0 ∧
      ∃ s2 acc2 q delivered,
        Merge.Push exAdded 9 ⟨0, [], []⟩ = some (s2, acc2) ∧ s2.a.nextGrouper = some q ∧
        acc2.metrics =
          (⟨0, [], []⟩ : Accumulator).metrics ++ delivered.map wallTimeMetric.Metric ∧
        delivered.Sublist (exAdded.groupers 0).Metrics ∧
        (s2.groupers q).Metrics.Sublist (exAdded.groupers 0).Metrics ∧
        (delivered ++ (s2.groupers q).Metrics).Perm (exAdded.groupers 0).Metrics ∧
        (exAdded.groupers 0).Metrics.Nodup ∧
        ((exAdded.groupers 0).Metrics.map wallTimeMetric.Metric).Nodup ∧
        (∀ w ∈ (exAdded.groupers 0).Metrics,
          (w ∈ delivered ∧ w ∉ (s2.groupers q).Metrics) ∨
            (w ∉ delivered ∧ w ∈ (s2.groupers q).Metrics)) ∧
        (s2.groupers q).metrics.length = (s2.groupers q).Metrics.length ∧
        s2.heap = exAdded.heap :=
  ⟨Reachable.add 5 0 (Reachable.init (Reachable.zero exHeap (fun _ => NewSeriesGrouper) 0 0))
      (rfl : Merge.Add (Merge.Init (exState 0)) 5 0 = some exAdded),
    rfl,
    flush_partitions exAdded
      (Reachable.add 5 0 (Reachable.init (Reachable.zero exHeap (fun _ => NewSeriesGrouper) 0 0))
        (rfl : Merge.Add (Merge.Init (exState 0)) 5 0 = some exAdded))
      0 rfl 9 ⟨0, [], []⟩⟩

/-! ## The claims on the grouper alone -/

theorem map_fst_pairs {M : Type} (key : M → Nat) (l : List M) :
    (l.map (fun m => (key m, m))).map Prod.fst = l.map key ∧
      (l.map (fun m => (key m, m))).map Prod.snd = l := by
  constructor
  · simp [List.map_map, Function.comp_def]
  · simp [List.map_map, Function.comp_def]

/-- C20 (map and list of a grouper are consistent). After any sequence of
`AddMetric` calls on a new grouper: the map has as many entries as the ordered
slice, its keys are pairwise distinct, the fingerprints of the metrics in the
slice are pairwise distinct, the metrics of the map entries are, in order, the
metrics of the slice, which are pairwise distinct, so that each map entry holds
the metric of exactly one position, under its fingerprint, and the map finds every
metric of the slice. A further `AddMetric` that finds its fingerprint in the map
writes the fields into the record of a metric of `Metrics()`. -/
theorem grouper_consistency {M : Type} [IsMetric M] (h : Heap) (ms : List M) :
    (addAll h NewSeriesGrouper ms).2.metrics.length =
        (addAll h NewSeriesGrouper ms).2.ordered.length ∧
      ((addAll h NewSeriesGrouper ms).2.metrics.map Prod.fst).Nodup ∧
      ((addAll h NewSeriesGrouper ms).2.ordered.map
        (fingerprint (addAll h NewSeriesGrouper ms).1)).Nodup ∧
      (addAll h NewSeriesGrouper ms).2.metrics.map Prod.snd =
        (addAll h NewSeriesGrouper ms).2.ordered ∧
      (addAll h NewSeriesGrouper ms).2.ordered.Nodup ∧
      (∀ e ∈ (addAll h NewSeriesGrouper ms).2.metrics,
        e.2 ∈ (addAll h NewSeriesGrouper ms).2.Metrics ∧
          e.1 = fingerprint (addAll h NewSeriesGrouper ms).1 e.2) ∧
      (∀ m ∈ (addAll h NewSeriesGrouper ms).2.Metrics,
        mapGet (addAll h NewSeriesGrouper ms).2.metrics
          (fingerprint (addAll h NewSeriesGrouper ms).1 m) = some m) ∧
      ∀ (m x : M),
        mapGet (addAll h NewSeriesGrouper ms).2.metrics
          (fingerprint (addAll h NewSeriesGrouper ms).1 m) = some x →
        x ∈ (addAll h NewSeriesGrouper ms).2.Metrics ∧
          (SeriesGrouper.AddMetric (addAll h NewSeriesGrouper ms).1
            (addAll h NewSeriesGrouper ms).2 m).2.Metrics =
              (addAll h NewSeriesGrouper ms).2.Metrics ∧
          ((SeriesGrouper.AddMetric (addAll h NewSeriesGrouper ms).1
            (addAll h NewSeriesGrouper ms).2 m).1 (IsMetric.ptr x)).fields =
              addFields ((addAll h NewSeriesGrouper ms).1 (IsMetric.ptr x)).fields
                ((addAll h NewSeriesGrouper ms).1 (IsMetric.ptr m)).fields := by
  obtain ⟨_, _, w⟩ := addAll_spec ms h NewSeriesGrouper (WF_new h)
  generalize addAll h NewSeriesGrouper ms = r at w
  obtain ⟨h1, g⟩ := r
  obtain ⟨w1, w2⟩ := w
  simp only at w1 w2 ⊢
  have e := map_fst_pairs (fingerprint h1) g.ordered
  refine ⟨by rw [w1]; simp, by rw [w1, e.1]; exact w2, w2, by rw [w1, e.2],
    List.Nodup.of_map _ w2, ?_, ?_, ?_⟩
  · intro x hx
    rw [w1] at hx
    obtain ⟨m, hm, rfl⟩ := List.mem_map.mp hx
    exact ⟨hm, rfl⟩
  · intro m hm
    rw [w1]
    exact mapGet_map_of_mem (fingerprint h1) _ m hm w2
  · intro m x hx
    have hx1 := mapGet_map_some (fingerprint h1) g.ordered _ x (by rw [← w1]; exact hx)
    rw [AddMetric_present h1 g m x hx]
    refine ⟨hx1.1, rfl, ?_⟩
    simp only
    rw [mergeFields_apply, if_pos rfl]

/-- Witness of C20: the three records of `TestHoldTime`, the third merging into
the first. -/
theorem grouper_consistency_witness :
    (addAll exHeap NewSeriesGrouper [(0 : Ref), 2, 3]).2.metrics.map Prod.snd = [0, 2] ∧
      (addAll exHeap NewSeriesGrouper [(0 : Ref), 2, 3]).2.metrics.length =
        (addAll exHeap NewSeriesGrouper [(0 : Ref), 2, 3]).2.ordered.length :=
  ⟨by set_option maxRecDepth 100000 in decide,
    (grouper_consistency exHeap [(0 : Ref), 2, 3]).1⟩

/-! ## `groupID` -/

theorem bytesLE_nil (b : List Nat) : bytesLE [] b = true := by
  cases b <;> rfl

theorem bytesLE_cons (a b : Nat) (as bs : List Nat) :
    bytesLE (a :: as) (b :: bs) = true ↔ a < b ∨ (a = b ∧ bytesLE as bs = true) := by
  simp [bytesLE]

theorem bytesLE_total (a b : List Nat) : bytesLE a b = true ∨ bytesLE b a = true := by
  induction a generalizing b with
  | nil => exact Or.inl (bytesLE_nil b)
  | cons x xs ih =>
    cases b with
    | nil => exact Or.inr (bytesLE_nil _)
    | cons y ys =>
      rw [bytesLE_cons, bytesLE_cons]
      rcases Nat.lt_trichotomy x y with h | h | h
      · exact Or.inl (Or.inl h)
      · rcases ih ys with h1 | h1
        · exact Or.inl (Or.inr ⟨h, h1⟩)
        · exact Or.inr (Or.inr ⟨h.symm, h1⟩)
      · exact Or.inr (Or.inl h)

theorem bytesLE_trans (a b c : List Nat) (hab : bytesLE a b = true)
    (hbc : bytesLE b c = true) : bytesLE a c = true := by
  induction a generalizing b c with
  | nil => exact bytesLE_nil c
  | cons x xs ih =>
    cases b with
    | nil => simp [bytesLE] at hab
    | cons y ys =>
      cases c with
      | nil => simp [bytesLE] at hbc
      | cons z zs =>
        rw [bytesLE_cons] at hab hbc ⊢
        rcases hab with h1 | ⟨h1, h2⟩
        · rcases hbc with h3 | ⟨h3, _⟩
          · exact Or.inl (by omega)
          · exact Or.inl (by omega)
        · rcases hbc with h3 | ⟨h3, h4⟩
          · exact Or.inl (by omega)
          · exact Or.inr ⟨by omega, ih ys zs h2 h4⟩

theorem bytesLE_antisymm (a b : List Nat) (hab : bytesLE a b = true)
    (hba : bytesLE b a = true) : a = b := by
  induction a generalizing b with
  | nil =>
    cases b with
    | nil => rfl
    | cons y ys => simp [bytesLE] at hba
  | cons x xs ih =>
    cases b with
    | nil => simp [bytesLE] at hab
    | cons y ys =>
      rw [bytesLE_cons] at hab hba
      rcases hab with h1 | ⟨h1, h2⟩
      · rcases hba with h3 | ⟨h3, _⟩
        · omega
        · omega
      · rcases hba with h3 | ⟨_, h4⟩
        · omega
        · rw [h1, ih ys h2 h4]

theorem sortTags_sorted (tags : List Tag) : (sortTags tags).Sorted tagLE := by
  haveI : IsTotal Tag tagLE := ⟨fun a b => bytesLE_total _ _⟩
  haveI : IsTrans Tag tagLE := ⟨fun a b c hab hbc => bytesLE_trans _ _ _ hab hbc⟩
  exact List.sorted_insertionSort tagLE tags

theorem sortTags_perm (tags : List Tag) : (sortTags tags).Perm tags :=
  List.perm_insertionSort tagLE tags

theorem sortTags_eq_of_perm (tags1 tags2 : List Tag) (hperm : tags1.Perm tags2)
    (hnd : (tags1.map (fun t => bytesOf t.Key)).Nodup) : sortTags tags1 = sortTags tags2 := by
  refine List.Perm.eq_of_sorted ?_ (sortTags_sorted tags1) (sortTags_sorted tags2)
    ((sortTags_perm tags1).trans (hperm.trans (sortTags_perm tags2).symm))
  intro a b ha hb hab hba
  have ha1 : a ∈ tags1 := (sortTags_perm tags1).subset ha
  have hb1 : b ∈ tags1 := hperm.symm.subset ((sortTags_perm tags2).subset hb)
  exact List.inj_on_of_nodup_map hnd ha1 hb1 (bytesLE_antisymm _ _ hab hba)

theorem fnvWrite_lt (data : List Nat) (hash : Nat) (h : hash < 2 ^ 64) :
    fnvWrite hash data < 2 ^ 64 := by
  induction data generalizing hash with
  | nil => exact h
  | cons b rest ih =>
    simp only [fnvWrite, List.foldl_cons]
    exact ih _ (Nat.mod_lt _ (by norm_num))

theorem groupID_lt (measurement : String) (tags : List Tag) (tm : Time) :
    groupID measurement tags tm < 2 ^ 64 := by
  unfold groupID
  exact fnvWrite_lt _ _ (fnvWrite_lt _ _ (by
    generalize sortTags tags = l
    generalize hb : fnvWrite (fnvWrite fnvOffset64 (bytesOf measurement)) (bytesOf "\n") = b
    have hlt : b < 2 ^ 64 := by
      rw [← hb]
      exact fnvWrite_lt _ _ (fnvWrite_lt _ _ (by decide))
    clear hb
    induction l generalizing b with
    | nil => exact hlt
    | cons t rest ih =>
      simp only [List.foldl_cons]
      exact ih _ (fnvWrite_lt _ _ (fnvWrite_lt _ _ (fnvWrite_lt _ _ (fnvWrite_lt _ _ hlt))))))

/-- C14 (fingerprint determinism). `groupID` is a function of the measurement
name, the tag set and the time: for a tag map with distinct keys, two
enumerations of its entries give the same list after sorting, which is in
ascending key order and holds the same tags, and so the same fingerprint, a
number below `2 ^ 64`; calls with equal arguments return equal fingerprints. -/
theorem groupID_deterministic (measurement : String) (tm : Time) (tags1 tags2 : List Tag)
    (hperm : tags1.Perm tags2) (hnd : (tags1.map (fun t => bytesOf t.Key)).Nodup) :
    groupID measurement tags1 tm = groupID measurement tags2 tm ∧
      groupID measurement tags1 tm < 2 ^ 64 ∧ sortTags tags1 = sortTags tags2 ∧
      (sortTags tags1).Sorted tagLE ∧ (sortTags tags1).Perm tags1 ∧
      ∀ (measurement1 : String) (tm1 : Time), measurement1 = measurement → tm1 = tm →
        groupID measurement1 tags2 tm1 = groupID measurement tags1 tm := by
  have e := sortTags_eq_of_perm tags1 tags2 hperm hnd
  have e1 : groupID measurement tags1 tm = groupID measurement tags2 tm := by
    simp only [groupID, e]
  refine ⟨e1, groupID_lt _ _ _, e, sortTags_sorted _, sortTags_perm _, ?_⟩
  intro m1 t1 hm ht
  rw [hm, ht, e1]

/-- Witness of C14: a map of two tags enumerated in both orders. -/
theorem groupID_deterministic_witness :
    ([⟨"host", "a"⟩, ⟨"cpu", "cpu0"⟩] : List Tag).Perm [⟨"cpu", "cpu0"⟩, ⟨"host", "a"⟩] ∧
      (([⟨"host", "a"⟩, ⟨"cpu", "cpu0"⟩] : List Tag).map (fun t => bytesOf t.Key)).Nodup ∧
      sortTags [⟨"host", "a"⟩, ⟨"cpu", "cpu0"⟩] = [⟨"cpu", "cpu0"⟩, ⟨"host", "a"⟩] ∧
      groupID "cpu" [⟨"host", "a"⟩, ⟨"cpu", "cpu0"⟩] (exTime 0) =
        groupID "cpu" [⟨"cpu", "cpu0"⟩, ⟨"host", "a"⟩] (exTime 0) :=
  ⟨List.Perm.swap _ _ _, by decide, by decide,
    (groupID_deterministic "cpu" (exTime 0) [⟨"host", "a"⟩, ⟨"cpu", "cpu0"⟩]
      [⟨"cpu", "cpu0"⟩, ⟨"host", "a"⟩] (List.Perm.swap _ _ _) (by decide)).1⟩

/-! ## The two entry points of the grouper -/

/-- C15, the code at the failing input: for the first record of `TestSimple`, the
fingerprint that `AddMetric` computes differs from `groupID` of its name, tags
and time; after `AddMetric` of that record on a new grouper, `AddField` with the
same name, tags and time does not find it, allocates a second record (at address
7) and `Metrics()` holds two records, the first with its own field only. -/
theorem entry_points_disagree :
    seriesID (exHeap 0) ≠ groupID (exHeap 0).name (exHeap 0).tags (exHeap 0).tm ∧
      (exHeap 0).name = "cpu" ∧ (exHeap 0).tags = [⟨"cpu", "cpu0"⟩] ∧
      (exHeap 0).tm = exTime 0 ∧
      (SeriesGrouper.AddField recordAddField
          (SeriesGrouper.AddMetric exHeap NewSeriesGrouper (0 : Ref)).1
          (SeriesGrouper.AddMetric exHeap NewSeriesGrouper (0 : Ref)).2 7 "cpu"
          [⟨"cpu", "cpu0"⟩] (exTime 0) "time_guest" (some (.int 42))).toOption.map
        (fun x => (x.2.Metrics, (x.1 0).fields, (x.1 7).fields)) =
      some ([0, 7], [⟨"time_idle", .int 42⟩], [⟨"time_guest", .int 42⟩]) := by
  refine ⟨?_, rfl, rfl, rfl, ?_⟩
  · set_option maxRecDepth 100000 in decide
  · set_option maxRecDepth 100000 in decide

/-- C13, the code at the failing input: on a new grouper, `AddField` with a value
that cannot be represented returns the error of `New` and no new memory; but once
a record of the identity exists (here created by `AddField` with a value that can
be represented), `AddField` with a value that cannot be represented takes the
branch of the existing record and returns `nil`, whatever the `AddField` of the
record does with the value. -/
theorem addField_existing_returns_nil
    (recAdd : Metric → String → Option FieldValue → Metric) (h : Heap) (fresh fresh2 : Ref)
    (measurement : String) (tags : List Tag) (tm : Time) (field field2 : String)
    (v : FieldValue) :
    SeriesGrouper.AddField recAdd h NewSeriesGrouper fresh measurement tags tm field none =
        .error .UnsupportedValueType ∧
      ∃ h1 g1,
        SeriesGrouper.AddField recAdd h NewSeriesGrouper fresh measurement tags tm field
          (some v) = .ok (h1, g1) ∧
        g1.Metrics = [fresh] ∧
        SeriesGrouper.AddField recAdd h1 g1 fresh2 measurement tags tm field2 none =
          .ok (h1.set fresh (recAdd (h1 fresh) field2 none), g1) := by
  constructor
  · simp [SeriesGrouper.AddField, NewSeriesGrouper, mapGet, New]
  · refine ⟨h.set fresh
        { name := measurement, tags := sortTags tags, fields := [⟨field, v⟩], tm := tm },
      { metrics := [(groupID measurement tags tm, fresh)], ordered := [fresh] }, ?_, rfl, ?_⟩
    · simp [SeriesGrouper.AddField, NewSeriesGrouper, mapGet, mapSet, New]
    · simp [SeriesGrouper.AddField, mapGet]

/-! ## `Add` and the staged grouper -/

theorem exPushed_reachable : Reachable exPushed := by
  have h1 : Reachable exAdded10 :=
    Reachable.add 5 0 (Reachable.init (Reachable.zero exHeap (fun _ => NewSeriesGrouper) 0 10))
      (rfl : Merge.Add (Merge.Init (exState 10)) 5 0 = some exAdded10)
  have hg : exAdded10.a.grouper = some 0 := rfl
  obtain ⟨hlt, hwf⟩ := h1.inv.1 0 hg
  obtain ⟨s2, acc2, e, _⟩ := Push_spec exAdded10 0 hg hlt hwf 7 ⟨0, [], []⟩
  have hx : exPushed = s2 := by
    unfold exPushed
    rw [e]
  rw [hx]
  exact Reachable.push 7 ⟨0, [], []⟩ acc2 h1 e

/-- C17 as stated fails, in two ways. The example state `exPushed` is reached by
`Init`, `Add` of the record at address 0 at clock reading 5 and `Push` at 7 with
a hold time of 10; its staged grouper, at address 1, holds the entry of that
record. An `Add` of the record at address 3, of the same identity, then merges
into the record at address 0, which the staged grouper shares: a field of a
staged record changes. And after `Reset` the staged grouper is the current one:
an `Add` of the record at address 2 appends to its record sequence. -/
theorem add_touches_staged :
    Reachable exPushed ∧ exPushed.a.grouper = some 0 ∧ exPushed.a.nextGrouper = some 1 ∧
      (exPushed.groupers 1).Metrics = [⟨5, 0⟩] ∧
      (exPushed.heap 0).fields = [⟨"time_idle", .int 42⟩] ∧
      (Merge.Add exPushed 8 3).map
          (fun s1 => (s1.a.nextGrouper, (s1.groupers 1).Metrics, (s1.heap 0).fields)) =
        some (some 1, [⟨5, 0⟩], [⟨"time_idle", .int 42⟩, ⟨"time_user", .int 53⟩]) ∧
      Reachable (Merge.Reset exPushed) ∧ (Merge.Reset exPushed).a.nextGrouper = some 1 ∧
      ((Merge.Reset exPushed).groupers 1).Metrics = [⟨5, 0⟩] ∧
      (Merge.Add (Merge.Reset exPushed) 8 2).map
          (fun s1 => (s1.a.nextGrouper, (s1.groupers 1).Metrics)) =
        some (some 1, [⟨5, 0⟩, ⟨8, 2⟩]) := by
  refine ⟨exPushed_reachable, ?_, ?_, ?_, ?_, ?_, Reachable.reset exPushed_reachable, ?_, ?_,
    ?_⟩
  · set_option maxRecDepth 100000 in decide
  · set_option maxRecDepth 100000 in decide
  · set_option maxRecDepth 100000 in decide
  · set_option maxRecDepth 100000 in decide
  · set_option maxRecDepth 100000 in decide
  · set_option maxRecDepth 100000 in decide
  · set_option maxRecDepth 100000 in decide
  · set_option maxRecDepth 100000 in decide

/-- C17, amended (what `Add` leaves alone). After a `Push` on a reachable,
initialised `Merge`, `nextGrouper` points to a grouper other than the current
one. In every state in which it does, `Add` returns, leaves the `nextGrouper`
pointer and the staged grouper (map and slice, hence its record sequence) as
they were, and changes the name, tags and time of no record. The fields are
unchanged on the whole heap when the `Add` creates an entry; when it merges,
they are unchanged for every record but the one it merges into. -/
theorem add_leaves_staged (s0 : State) (hs0 : Reachable s0) (p0 : Nat)
    (hp0 : s0.a.grouper = some p0) (now0 : Int) (acc0 : Accumulator) (s : State) (p q : Nat)
    (hp : s.a.grouper = some p) (hq : s.a.nextGrouper = some q) (hpq : q ≠ p) (now : Int)
    (m : Ref) :
    (∃ s2 acc2 q0,
      Merge.Push s0 now0 acc0 = some (s2, acc2) ∧ s2.a.grouper = some p0 ∧
      s2.a.nextGrouper = some q0 ∧ q0 ≠ p0) ∧
    ∃ s1,
      Merge.Add s now m = some s1 ∧ s1.a.nextGrouper = some q ∧
      s1.groupers q = s.groupers q ∧ (s1.groupers q).Metrics = (s.groupers q).Metrics ∧
      (∀ r, (s1.heap r).identity = (s.heap r).identity) ∧
      (mapGet (s.groupers p).metrics (seriesID (s.heap m)) = none → s1.heap = s.heap) ∧
      ∀ x, mapGet (s.groupers p).metrics (seriesID (s.heap m)) = some x →
        ∀ r, r ≠ x.Metric → s1.heap r = s.heap r := by
  constructor
  · obtain ⟨hlt, hwf⟩ := hs0.inv.1 p0 hp0
    obtain ⟨s2, acc2, e2, _, c2, _, _, _, _⟩ := Push_spec s0 p0 hp0 hlt hwf now0 acc0
    exact ⟨s2, acc2, s0.nextAddr, e2, by rw [c2]; exact hp0, by rw [c2],
      fun e => Nat.lt_irrefl _ (e ▸ hlt)⟩
  · cases ha : mapGet (s.groupers p).metrics (seriesID (s.heap m)) with
    | none =>
      obtain ⟨s1, e1, a1, a2, _, _, a5⟩ := Add_absent s p hp now m ha
      have hg : s1.groupers q = s.groupers q := a5 q hpq
      refine ⟨s1, e1, by rw [a2]; exact hq, hg, by rw [hg], ?_, fun _ => a1, ?_⟩
      · intro r; rw [a1]
      · intro x hx; simp at hx
    | some x =>
      obtain ⟨s1, e1, b1, b2, _, b4⟩ := Add_present s p hp now m x ha
      refine ⟨s1, e1, by rw [b2]; exact hq, by rw [b4], by rw [b4], ?_, ?_, ?_⟩
      · intro r
        rw [b1]
        exact mergeFields_sameIds _ _ _ r
      · intro hx; simp at hx
      · intro y hy r hr
        simp only [Option.some.injEq] at hy
        subst hy
        rw [b1, mergeFields_apply, if_neg hr]

/-- Witness of the amended C17: the first run of the counterexample. -/
theorem add_leaves_staged_witness :
    Reachable exAdded10 ∧ exAdded10.a.grouper = some 0 ∧ exPushed.a.grouper = some 0 ∧
      exPushed.a.nextGrouper = some 1 ∧ (1 : Nat) ≠ 0 ∧
      (∃ s2 acc2 q0,
        Merge.Push exAdded10 7 ⟨0, [], []⟩ = some (s2, acc2) ∧ s2.a.grouper = some 0 ∧
        s2.a.nextGrouper = some q0 ∧ q0 ≠ 0) ∧
      ∃ s1,
        Merge.Add exPushed 8 3 = some s1 ∧ s1.a.nextGrouper = some 1 ∧
        s1.groupers 1 = exPushed.groupers 1 ∧
        (s1.groupers 1).Metrics = (exPushed.groupers 1).Metrics ∧
        (∀ r, (s1.heap r).identity = (exPushed.heap r).identity) ∧
        (mapGet (exPushed.groupers 0).metrics (seriesID (exPushed.heap 3)) = none →
          s1.heap = exPushed.heap) ∧
        ∀ x, mapGet (exPushed.groupers 0).metrics (seriesID (exPushed.heap 3)) = some x →
          ∀ r, r ≠ x.Metric → s1.heap r = exPushed.heap r :=
  ⟨Reachable.add 5 0 (Reachable.init (Reachable.zero exHeap (fun _ => NewSeriesGrouper) 0 10))
      (rfl : Merge.Add (Merge.Init (exState 10)) 5 0 = some exAdded10),
    rfl, by set_option maxRecDepth 100000 in decide,
    by set_option maxRecDepth 100000 in decide, by decide,
    add_leaves_staged exAdded10
      (Reachable.add 5 0
        (Reachable.init (Reachable.zero exHeap (fun _ => NewSeriesGrouper) 0 10))
        (rfl : Merge.Add (Merge.Init (exState 10)) 5 0 = some exAdded10))
      0 rfl 7 ⟨0, [], []⟩ exPushed 0 1 (by set_option maxRecDepth 100000 in decide)
      (by set_option maxRecDepth 100000 in decide) (by decide) 8 3⟩

/-! ## Runs of adds and flush cycles -/

theorem step_add (s s1 : State) (acc : Accumulator) (now : Int) (m : Ref)
    (e : Merge.Add s now m = some s1) : step (s, acc) (.add now m) = some (s1, acc) := by
  simp [step, e]

theorem step_flush (s s2 : State) (acc acc2 : Accumulator) (now : Int)
    (e : Merge.Push s now acc = some (s2, acc2)) :
    step (s, acc) (.flush now) = some (Merge.Reset s2, acc2) := by
  simp [step, e]

theorem flush_spec (s : State) (hs : Reachable s) (p : Nat) (hp : s.a.grouper = some p)
    (now : Int) (acc : Accumulator) :
    ∃ s2 acc2, Merge.Push s now acc = some (s2, acc2) ∧ Reachable (Merge.Reset s2) ∧
      (Merge.Reset s2).a.grouper = some s.nextAddr ∧
      (Merge.Reset s2).a.HoldTime = s.a.HoldTime ∧ (Merge.Reset s2).heap = s.heap ∧
      ((Merge.Reset s2).groupers s.nextAddr).ordered =
        heldBack (now + negDuration s.a.HoldTime) (s.groupers p).ordered ∧
      acc2.metrics = acc.metrics ++
        (ready (now + negDuration s.a.HoldTime) (s.groupers p).ordered).map
          wallTimeMetric.Metric := by
  obtain ⟨hlt, hwf⟩ := hs.inv.1 p hp
  obtain ⟨s2, acc2, e2, c1, c2, _, c4, _, c6⟩ := Push_spec s p hp hlt hwf now acc
  refine ⟨s2, acc2, e2, Reachable.reset (Reachable.push now acc acc2 hs e2), ?_, ?_, c1, ?_,
    by rw [c6]⟩
  · show s2.a.nextGrouper = some s.nextAddr
    rw [c2]
  · show s2.a.HoldTime = s.a.HoldTime
    rw [c2]
  · show (s2.groupers s.nextAddr).ordered = _
    rw [c4]; rfl

theorem add_spec (s : State) (hs : Reachable s) (p : Nat) (hp : s.a.grouper = some p)
    (now : Int) (m : Ref) :
    ∃ s1, Merge.Add s now m = some s1 ∧ Reachable s1 ∧ s1.a = s.a ∧
      (∀ w ∈ (s.groupers p).ordered, w ∈ (s1.groupers p).ordered) ∧
      ∀ w ∈ (s1.groupers p).ordered, w ∈ (s.groupers p).ordered ∨ w = ⟨now, m⟩ := by
  cases ha : mapGet (s.groupers p).metrics (seriesID (s.heap m)) with
  | none =>
    obtain ⟨s1, e1, _, a2, _, a4, _⟩ := Add_absent s p hp now m ha
    refine ⟨s1, e1, Reachable.add now m hs e1, a2, ?_, ?_⟩
    · intro w hw; rw [a4]; exact List.mem_append_left _ hw
    · intro w hw
      rw [a4] at hw
      rcases List.mem_append.mp hw with h | h
      · exact Or.inl h
      · exact Or.inr (by simpa using h)
  | some x =>
    obtain ⟨s1, e1, _, b2, _, b4⟩ := Add_present s p hp now m x ha
    refine ⟨s1, e1, Reachable.add now m hs e1, b2, ?_, ?_⟩
    · intro w hw; rw [b4]; exact hw
    · intro w hw; rw [b4] at hw; exact Or.inl hw

theorem run_carry (w : wallTimeMetric) (evs : List Event) :
    ∀ (s : State) (acc : Accumulator) (p : Nat), Reachable s → s.a.grouper = some p →
      Negatable s.a.HoldTime → w ∈ (s.groupers p).ordered →
      (∀ t ∈ flushTimes evs, t < w.wallTime + s.a.HoldTime) →
      ∃ st d p1, run (s, acc) evs = some st ∧ Reachable st.1 ∧ st.1.a.grouper = some p1 ∧
        st.1.a.HoldTime = s.a.HoldTime ∧ w ∈ (st.1.groupers p1).ordered ∧
        st.2.metrics = acc.metrics ++ d ∧ w.Metric ∉ d := by
  induction evs with
  | nil =>
    intro s acc p hs hp _ hw _
    exact ⟨(s, acc), [], p, rfl, hs, hp, rfl, hw, by simp, by simp⟩
  | cons ev rest ih =>
    intro s acc p hs hp hN hw ht
    cases ev with
    | add now m =>
      obtain ⟨s1, e1, hr1, a1, a2, _⟩ := add_spec s hs p hp now m
      obtain ⟨st, d, p1, r1, r2, r3, r4, r5, r6, r7⟩ := ih s1 acc p hr1 (by rw [a1]; exact hp)
        (by rw [a1]; exact hN) (a2 w hw)
        (by rw [a1]; intro t h; exact ht t (by simpa [flushTimes] using h))
      refine ⟨st, d, p1, ?_, r2, r3, by rw [r4, a1], r5, r6, r7⟩
      simp only [run, step_add s s1 acc now m e1, Option.some_bind, r1]
    | flush now =>
      obtain ⟨s2, acc2, e2, hr2, f1, f2, _, f4, f5⟩ := flush_spec s hs p hp now acc
      obtain ⟨_, hwf⟩ := hs.inv.1 p hp
      have hlt : now + negDuration s.a.HoldTime < w.wallTime := by
        have := ht now (by simp [flushTimes])
        rw [negDuration_eq _ hN]; omega
      obtain ⟨g1, _⟩ := gate_entry s.heap _ hwf.2 (now + negDuration s.a.HoldTime) w hw
      obtain ⟨k1, k2⟩ := g1 hlt
      obtain ⟨st, d, p1, r1, r2, r3, r4, r5, r6, r7⟩ := ih (Merge.Reset s2) acc2 s.nextAddr
        hr2 f1 (by rw [f2]; exact hN) (by rw [f4]; exact k1)
        (by rw [f2]; intro t h; exact ht t (by simp [flushTimes, h]))
      refine ⟨st, (ready (now + negDuration s.a.HoldTime) (s.groupers p).ordered).map
          wallTimeMetric.Metric ++ d, p1, ?_, r2, r3, by rw [r4, f2], r5, ?_, ?_⟩
      · simp only [run, step_flush s s2 acc acc2 now e2, Option.some_bind, r1]
      · rw [r6, f5, List.append_assoc]
      · intro hmem
        rcases List.mem_append.mp hmem with h | h
        · exact k2 h
        · exact r7 h

theorem run_gone (r : Ref) (evs : List Event) :
    ∀ (s : State) (acc : Accumulator) (p : Nat), Reachable s → s.a.grouper = some p →
      (∀ w ∈ (s.groupers p).ordered, w.Metric ≠ r) → r ∉ addedRefs evs →
      ∃ st d p1, run (s, acc) evs = some st ∧ Reachable st.1 ∧ st.1.a.grouper = some p1 ∧
        (∀ w ∈ (st.1.groupers p1).ordered, w.Metric ≠ r) ∧
        st.2.metrics = acc.metrics ++ d ∧ r ∉ d := by
  induction evs with
  | nil =>
    intro s acc p hs hp hg _
    exact ⟨(s, acc), [], p, rfl, hs, hp, hg, by simp, by simp⟩
  | cons ev rest ih =>
    intro s acc p hs hp hg hr
    cases ev with
    | add now m =>
      have hne : r ≠ m := fun e => hr (by simp [addedRefs, e])
      obtain ⟨s1, e1, hr1, a1, _, a3⟩ := add_spec s hs p hp now m
      obtain ⟨st, d, p1, r1, r2, r3, r4, r5, r6⟩ := ih s1 acc p hr1 (by rw [a1]; exact hp)
        (by
          intro w hw
          rcases a3 w hw with h | h
          · exact hg w h
          · rw [h]; exact fun e => hne e.symm)
        (fun h => hr (by simp [addedRefs, h]))
      refine ⟨st, d, p1, ?_, r2, r3, r4, r5, r6⟩
      simp only [run, step_add s s1 acc now m e1, Option.some_bind, r1]
    | flush now =>
      obtain ⟨s2, acc2, e2, hr2, f1, _, _, f4, f5⟩ := flush_spec s hs p hp now acc
      obtain ⟨st, d, p1, r1, r2, r3, r4, r5, r6⟩ := ih (Merge.Reset s2) acc2 s.nextAddr
        hr2 f1
        (by
          intro w hw
          rw [f4] at hw
          exact hg w ((heldBack_sublist _ _).subset hw))
        (fun h => hr (by simpa [addedRefs] using h))
      refine ⟨st, (ready (now + negDuration s.a.HoldTime) (s.groupers p).ordered).map
          wallTimeMetric.Metric ++ d, p1, ?_, r2, r3, r4, ?_, ?_⟩
      · simp only [run, step_flush s s2 acc acc2 now e2, Option.some_bind, r1]
      · rw [r5, f5, List.append_assoc]
      · intro hmem
        rcases List.mem_append.mp hmem with h | h
        · obtain ⟨w, hw, ew⟩ := List.mem_map.mp h
          exact hg w ((ready_sublist _ _).subset hw) ew
        · exact r6 h

theorem exPushed_push : Merge.Push exAdded10 7 ⟨0, [], []⟩ = some (exPushed, ⟨1, [], []⟩) := by
  have h1 : Reachable exAdded10 :=
    Reachable.add 5 0 (Reachable.init (Reachable.zero exHeap (fun _ => NewSeriesGrouper) 0 10))
      (rfl : Merge.Add (Merge.Init (exState 10)) 5 0 = some exAdded10)
  have hg : exAdded10.a.grouper = some 0 := rfl
  obtain ⟨hlt, hwf⟩ := h1.inv.1 0 hg
  obtain ⟨s2, acc2, e, _, _, _, _, _, c6⟩ := Push_spec exAdded10 0 hg hlt hwf 7 ⟨0, [], []⟩
  have hx : exPushed = s2 := by
    unfold exPushed
    rw [e]
  have hacc : acc2 = ⟨1, [], []⟩ := by
    rw [c6]
    set_option maxRecDepth 100000 in decide
  rw [e, hx, hacc]

/-- C18 (records added between flush and commit are dropped). Let `Push` on a
reachable, initialised `Merge` be followed, before `Reset`, by the `Add` of a
record `r` whose fingerprint is not in the current grouper. That `Push` has not
handed `r` over; the `Add` returns and enters `r` in the grouper that is still
current; after `Reset` no metric of the current grouper has the record `r`; and
in every later run of adds and flush cycles in which `r` is not handed to `Add`
again, no `Push` hands `r` over. -/
theorem added_between_flush_and_commit (s : State) (hs : Reachable s) (p : Nat)
    (hp : s.a.grouper = some p) (now : Int) (acc : Accumulator) (s2 : State)
    (acc2 : Accumulator) (hpush : Merge.Push s now acc = some (s2, acc2)) (T : Int) (r : Ref)
    (hnew : mapGet (s2.groupers p).metrics (seriesID (s2.heap r)) = none)
    (evs : List Event) (hevs : r ∉ addedRefs evs) (acc3 : Accumulator) :
    ∃ d s3 q st d2,
      acc2.metrics = acc.metrics ++ d ∧ r ∉ d ∧ s2.a.grouper = some p ∧
      Merge.Add s2 T r = some s3 ∧ (⟨T, r⟩ : wallTimeMetric) ∈ (s3.groupers p).Metrics ∧
      (Merge.Reset s3).a.grouper = some q ∧
      (∀ w ∈ ((Merge.Reset s3).groupers q).Metrics, w.Metric ≠ r) ∧
      run (Merge.Reset s3, acc3) evs = some st ∧ st.2.metrics = acc3.metrics ++ d2 ∧
      r ∉ d2 := by
  obtain ⟨hlt, hwf⟩ := hs.inv.1 p hp
  obtain ⟨s2x, acc2x, e2, c1, c2, _, c4, c5, c6⟩ := Push_spec s p hp hlt hwf now acc
  rw [e2] at hpush
  simp only [Option.some.injEq, Prod.mk.injEq] at hpush
  obtain ⟨hs2, hacc2⟩ := hpush
  subst hs2
  subst hacc2
  have hne : p ≠ s.nextAddr := Nat.ne_of_lt hlt
  have hgp : s2x.groupers p = s.groupers p := c5 p hne
  have hg2 : s2x.a.grouper = some p := by rw [c2]; exact hp
  have hno : ∀ w ∈ (s.groupers p).ordered, w.Metric ≠ r := by
    intro w hw ew
    rw [hgp, c1, hwf.1] at hnew
    have := (mapGet_map_none _ _ _).mp hnew
    apply this
    rw [← ew]
    exact List.mem_map_of_mem (fingerprint s.heap) hw
  obtain ⟨s3, e3, _, a2, _, a4, a5⟩ := Add_absent s2x p hg2 T r hnew
  have hq : (Merge.Reset s3).a.grouper = some s.nextAddr := by
    show s3.a.nextGrouper = some s.nextAddr
    rw [a2, c2]
  have hord : ((Merge.Reset s3).groupers s.nextAddr).ordered =
      heldBack (now + negDuration s.a.HoldTime) (s.groupers p).ordered := by
    show (s3.groupers s.nextAddr).ordered = _
    rw [a5 _ (fun e => hne e.symm), c4]; rfl
  have hgone : ∀ w ∈ ((Merge.Reset s3).groupers s.nextAddr).ordered, w.Metric ≠ r := by
    intro w hw
    rw [hord] at hw
    exact hno w ((heldBack_sublist _ _).subset hw)
  have hr3 : Reachable (Merge.Reset s3) :=
    Reachable.reset (Reachable.add T r (Reachable.push now acc _ hs e2) e3)
  obtain ⟨st, d2, _, r1, _, _, _, r5, r6⟩ := run_gone r evs (Merge.Reset s3) acc3 s.nextAddr
    hr3 hq hgone hevs
  refine ⟨_, s3, s.nextAddr, st, d2, by rw [c6], ?_, hg2, e3, ?_, hq, hgone, r1, r5, r6⟩
  · intro hmem
    obtain ⟨w, hw, ew⟩ := List.mem_map.mp hmem
    exact hno w ((ready_sublist _ _).subset hw) ew
  · show (⟨T, r⟩ : wallTimeMetric) ∈ (s3.groupers p).ordered
    rw [a4]; simp

/-- Witness of C18: after the push of the example run at clock reading 7, the
record at address 2 is added at 8; a flush at 30, another add and a flush at 50
follow the `Reset`. -/
theorem added_between_flush_and_commit_witness :
    Reachable exAdded10 ∧ exAdded10.a.grouper = some 0 ∧
      Merge.Push exAdded10 7 ⟨0, [], []⟩ = some (exPushed, ⟨1, [], []⟩) ∧
      mapGet (exPushed.groupers 0).metrics (seriesID (exPushed.heap 2)) = none ∧
      2 ∉ addedRefs [.flush 30, .add 31 1, .flush 50] ∧
      ∃ d s3 q st d2,
        (⟨1, [], []⟩ : Accumulator).metrics = (⟨0, [], []⟩ : Accumulator).metrics ++ d ∧ 2 ∉ d ∧
        exPushed.a.grouper = some 0 ∧
        Merge.Add exPushed 8 2 = some s3 ∧
        (⟨8, 2⟩ : wallTimeMetric) ∈ (s3.groupers 0).Metrics ∧
        (Merge.Reset s3).a.grouper = some q ∧
        (∀ w ∈ ((Merge.Reset s3).groupers q).Metrics, w.Metric ≠ 2) ∧
        run (Merge.Reset s3, ⟨1, [], []⟩) [.flush 30, .add 31 1, .flush 50] = some st ∧
        st.2.metrics = (⟨1, [], []⟩ : Accumulator).metrics ++ d2 ∧ 2 ∉ d2 :=
  ⟨Reachable.add 5 0 (Reachable.init (Reachable.zero exHeap (fun _ => NewSeriesGrouper) 0 10))
      (rfl : Merge.Add (Merge.Init (exState 10)) 5 0 = some exAdded10),
    rfl, exPushed_push, by set_option maxRecDepth 100000 in decide, by decide,
    added_between_flush_and_commit exAdded10
      (Reachable.add 5 0
        (Reachable.init (Reachable.zero exHeap (fun _ => NewSeriesGrouper) 0 10))
        (rfl : Merge.Add (Merge.Init (exState 10)) 5 0 = some exAdded10))
      0 rfl 7 ⟨0, [], []⟩ exPushed ⟨1, [], []⟩ exPushed_push 8 2
      (by set_option maxRecDepth 100000 in decide) [.flush 30, .add 31 1, .flush 50]
      (by decide) ⟨1, [], []⟩⟩

/-- C19 as stated fails at the least hold time: with `HoldTime = math.MinInt64`
the record at address 0 is added at clock reading 5, and flush cycles follow at
the clock readings 7, 100 and 10^18, each not earlier than `5 + HoldTime`. The
first of them does not hand the record over, nor does any other: the
accumulator stays empty and the entry is still in the current grouper. -/
theorem at_most_once_delivery_counterexample :
    (∀ t ∈ flushTimes [.add 5 0, .flush 7, .flush 100, .flush 1000000000000000000],
        (5 : Int) + (Merge.Init (exState (-9223372036854775808))).a.HoldTime ≤ t) ∧
      (run (Merge.Init (exState (-9223372036854775808)), ⟨0, [], []⟩)
          [.add 5 0, .flush 7, .flush 100, .flush 1000000000000000000]).map
        (fun st => (st.2.metrics, st.1.a.grouper.map (fun q => (st.1.groupers q).Metrics))) =
      some ([], some [⟨5, 0⟩]) := by
  refine ⟨by decide, ?_⟩
  set_option maxRecDepth 100000 in decide

/-- C19, amended (at most one delivery over flush and commit cycles, for every
hold time but the least). On a reachable, initialised `Merge` whose `HoldTime`
is a 64-bit duration other than the least (`math.MinInt64`), let an `Add` at
clock reading `T` create the entry of the record `r`. Through every run `pre` of
adds and flush cycles (`Push` immediately followed by `Reset`) whose flushes all
come before `T + HoldTime`, no `Push` hands `r` over and the entry stays in the
current grouper with its stamp `T`. The next flush, the first at
`now ≥ T + HoldTime`, hands `r` over exactly once. In every run `post` after it
in which `r` is not handed to `Add` again (which would create a new entry), no
`Push` hands `r` over. All the calls return. -/
theorem at_most_once_delivery (s : State) (hs : Reachable s) (p : Nat)
    (hp : s.a.grouper = some p) (hN : Negatable s.a.HoldTime) (T : Int) (r : Ref)
    (hnew : mapGet (s.groupers p).metrics (seriesID (s.heap r)) = none) (acc : Accumulator)
    (pre post : List Event) (now : Int)
    (hpre : ∀ t ∈ flushTimes pre, t < T + s.a.HoldTime) (hnow : T + s.a.HoldTime ≤ now)
    (hpost : r ∉ addedRefs post) :
    ∃ s1 st2 st3 st4 p2 d1 d2 d3,
      Merge.Add s T r = some s1 ∧ run (s1, acc) pre = some st2 ∧
      st2.1.a.grouper = some p2 ∧
      (⟨T, r⟩ : wallTimeMetric) ∈ (st2.1.groupers p2).Metrics ∧
      st2.2.metrics = acc.metrics ++ d1 ∧ r ∉ d1 ∧
      step st2 (.flush now) = some st3 ∧ st3.2.metrics = st2.2.metrics ++ d2 ∧
      d2.count r = 1 ∧
      run st3 post = some st4 ∧ st4.2.metrics = st3.2.metrics ++ d3 ∧ r ∉ d3 := by
  obtain ⟨s1, e1, _, a2, _, a4, _⟩ := Add_absent s p hp T r hnew
  have hg1 : s1.a.grouper = some p := by rw [a2]; exact hp
  have hr1 : Reachable s1 := Reachable.add T r hs e1
  have hin : (⟨T, r⟩ : wallTimeMetric) ∈ (s1.groupers p).ordered := by
    rw [a4]; simp
  obtain ⟨st2, d1, p2, r1, r2, r3, r4, r5, r6, r7⟩ := run_carry ⟨T, r⟩ pre s1 acc p hr1 hg1
    (by rw [a2]; exact hN) hin (by rw [a2]; exact hpre)
  have hH : st2.1.a.HoldTime = s.a.HoldTime := by rw [r4, a2]
  obtain ⟨s3, acc3, e3, hr3, f1, _, _, f4, f5⟩ := flush_spec st2.1 r2 p2 r3 now st2.2
  obtain ⟨_, hwf⟩ := r2.inv.1 p2 r3
  obtain ⟨_, g2⟩ := gate_entry st2.1.heap _ hwf.2 (now + negDuration st2.1.a.HoldTime)
    ⟨T, r⟩ r5
  obtain ⟨k1, k2⟩ := g2 (by
    rw [hH, negDuration_eq _ hN]
    show T ≤ now + -s.a.HoldTime
    omega)
  have hnd : ((ready (now + negDuration st2.1.a.HoldTime)
      (st2.1.groupers p2).ordered).map wallTimeMetric.Metric).Nodup :=
    List.Nodup.sublist (List.Sublist.map _ (ready_sublist _ _)) (metric_nodup _ _ hwf.2)
  have hgone : ∀ w ∈ ((Merge.Reset s3).groupers st2.1.nextAddr).ordered, w.Metric ≠ r := by
    intro w hw ew
    rw [f4] at hw
    have hw1 := (heldBack_sublist _ _).subset hw
    have := entry_unique st2.1.heap _ hwf.2 ⟨T, r⟩ w r5 hw1 ew
    subst this
    exact k2 hw
  obtain ⟨st4, d3, _, q1, _, _, _, q5, q6⟩ := run_gone r post (Merge.Reset s3) acc3
    st2.1.nextAddr hr3 f1 hgone hpost
  exact ⟨s1, st2, (Merge.Reset s3, acc3), st4, p2, d1, _, d3, e1, r1, r3, r5, r6, r7,
    step_flush st2.1 s3 st2.2 acc3 now e3, f5, List.count_eq_one_of_mem hnd k1, q1, q5, q6⟩

/-- Witness of the amended C19: with a hold time of 10 the record at address 0
is added at clock reading 5; another add, a flush at 7 and a merging add come before the
flush at 20; an add and a flush at 40 follow. -/
theorem at_most_once_delivery_witness :
    Reachable (Merge.Init (exState 10)) ∧ (Merge.Init (exState 10)).a.grouper = some 0 ∧
      Negatable (Merge.Init (exState 10)).a.HoldTime ∧
      mapGet ((Merge.Init (exState 10)).groupers 0).metrics
        (seriesID ((Merge.Init (exState 10)).heap 0)) = none ∧
      (∀ t ∈ flushTimes [.add 6 2, .flush 7, .add 8 3],
        t < 5 + (Merge.Init (exState 10)).a.HoldTime) ∧
      (5 : Int) + (Merge.Init (exState 10)).a.HoldTime ≤ 20 ∧
      0 ∉ addedRefs [.add 21 1, .flush 40] ∧
      ∃ s1 st2 st3 st4 p2 d1 d2 d3,
        Merge.Add (Merge.Init (exState 10)) 5 0 = some s1 ∧
        run (s1, ⟨0, [], []⟩) [.add 6 2, .flush 7, .add 8 3] = some st2 ∧
        st2.1.a.grouper = some p2 ∧
        (⟨5, 0⟩ : wallTimeMetric) ∈ (st2.1.groupers p2).Metrics ∧
        st2.2.metrics = (⟨0, [], []⟩ : Accumulator).metrics ++ d1 ∧ 0 ∉ d1 ∧
        step st2 (.flush 20) = some st3 ∧ st3.2.metrics = st2.2.metrics ++ d2 ∧
        d2.count 0 = 1 ∧
        run st3 [.add 21 1, .flush 40] = some st4 ∧
        st4.2.metrics = st3.2.metrics ++ d3 ∧ 0 ∉ d3 :=
  ⟨Reachable.init (Reachable.zero _ _ _ _), rfl, by decide, rfl, by decide, by decide,
    by decide,
    at_most_once_delivery (Merge.Init (exState 10)) (Reachable.init (Reachable.zero _ _ _ _))
      0 rfl (by decide) 5 0 rfl ⟨0, [], []⟩ [.add 6 2, .flush 7, .add 8 3]
      [.add 21 1, .flush 40] 20 (by decide) (by decide) (by decide)⟩

end Telegraf
